import Mathlib

/-!
Shallow embedding of the cooperative-game library (`cooperative_games/games.py`,
`cooperative_games/indices/power_values.py`, `cooperative_games/indices/power_indices.py`).

Players are the integers `1..n`.  Coalitions are the sorted tuples produced by
Python's `itertools.combinations`, enumerated by increasing size.  Payoffs are
modelled as exact rationals.  Dictionary lookups (`v[coalition]`) are modelled
by an association-list lookup; the `.getD 0` default is only ever exercised on
keys that are proven to be present (the Python code would raise `KeyError`
otherwise, and every computation below only looks up keys of the table).
-/

namespace CoopGames

/-- Python `itertools.combinations(l, r)`: all length-`r` subsequences of `l`
in lexicographic order (the order in which `combinations` yields them). -/
def combinations : Nat → List Nat → List (List Nat)
  | 0, _ => [[]]
  | _ + 1, [] => []
  | r + 1, x :: xs => ((combinations r xs).map (fun c => x :: c)) ++ combinations (r + 1) xs

/-- The player vector `[1, ..., n]` built by `Game.__init__`. -/
def playersList (n : Nat) : List Nat := List.range' 1 n

/-- Embeds `BaseGame._init_coalitions`: `chain.from_iterable(combinations(players, r) for r in 1..n)`. -/
def coalitionsList (n : Nat) : List (List Nat) :=
  (((List.range n).map (fun r => combinations (r + 1) (playersList n)))).flatten

/-- Association-list lookup, modelling Python dictionary indexing `d[k]`
(the dictionaries in the source have distinct keys). -/
def dictLookup : List (List Nat × ℚ) → List Nat → Option ℚ
  | [], _ => none
  | (k, q) :: rest, key => if k = key then some q else dictLookup rest key

/-- Python `max` of a list (the source only applies it to nonempty lists;
the empty case is given a junk value). -/
def listMax : List ℚ → ℚ
  | [] => 0
  | x :: xs => xs.foldl max x

/-- Embeds `tuple(sorted(C + (player,)))` for an already sorted `C`. -/
def insertPlayer (p : Nat) (c : List Nat) : List Nat :=
  c.orderedInsert (· ≤ ·) p

/-- A TU game object: it stores the validated contribution vector
(`Game.__init__` keeps `self._contributions`). -/
structure Game where
  contributions : List ℚ
deriving DecidableEq

/-- Embeds `num_players = log2(len(contributions) + 1)`. -/
def Game.numPlayers (g : Game) : Nat := Nat.log2 (g.contributions.length + 1)

/-- Embeds `self._players`. -/
def Game.players (g : Game) : List Nat := playersList g.numPlayers

/-- Embeds `self._coalitions`. -/
def Game.coalitions (g : Game) : List (List Nat) := coalitionsList g.numPlayers

/-- Embeds `Game.characteristic_function()`: the dict `{coalition: contribution}`. -/
def Game.characteristic_function (g : Game) : List (List Nat × ℚ) :=
  g.coalitions.zip g.contributions

/-- Evaluates `v[S]` on the characteristic function of `g`. -/
def Game.v (g : Game) (s : List Nat) : ℚ :=
  (dictLookup g.characteristic_function s).getD 0

/-- A game is well formed when the contribution vector has length `2^n - 1`
(this is exactly what `Game.__init__` validates before storing it). -/
def Game.Wf (g : Game) : Prop :=
  g.contributions.length + 1 = 2 ^ g.numPlayers

/-- The ordering of the coalition universe: ascending size, then lexicographic
on the player tuples within a size class. -/
def sizeLex (c d : List Nat) : Prop :=
  c.length < d.length ∨ (c.length = d.length ∧ List.Lex (· < ·) c d)

/-- The grand coalition `self.coalitions[-1]`, as the code accesses it. -/
def grandCoalition (n : Nat) : List Nat := playersList n

/-- Number of contributions preceding the size-`i+1` block of the coalition
list: the running `start_idx` of `Game.__check_if_contributions_are_monotone`. -/
def offsetC (n i : Nat) : Nat := ((List.range i).map (fun k => n.choose (k + 1))).sum

/-- Loop body of `Game.__check_if_contributions_are_monotone`: walk the
coalition sizes, slice the contribution vector into blocks of `binom(n, i)`
entries, and compare each block maximum against every previously seen one.
`any(contrib for contrib in max_contribs if contrib > max_contrib)` is
modelled with Python truthiness: a previous maximum equal to `0` is falsy and
can never trigger the non-monotonicity branch. -/
def monotoneGo (contributions : List ℚ) (n : Nat) :
    List Nat → Nat → List ℚ → Bool
  | [], _, _ => true
  | i :: rest, startIdx, maxContribs =>
    let endIdx := n.choose i + startIdx
    let maxContrib := listMax ((contributions.drop startIdx).take (n.choose i))
    if (maxContribs.filter (fun c => decide (maxContrib < c))).any
        (fun c => decide (c ≠ 0)) then false
    else monotoneGo contributions n rest endIdx (maxContribs ++ [maxContrib])

/-- Embeds `Game.__check_if_contributions_are_monotone`. -/
def check_if_contributions_are_monotone (contributions : List ℚ) (n : Nat) : Bool :=
  monotoneGo contributions n (List.range' 1 n) 0 []

/-- Embeds `Game.__init__`: the full construction sequence, with each `raise`
modelled as an error value (no partially constructed object escapes). -/
def Game.make (contributions : List ℚ) : Except String Game :=
  if contributions = [] then .error "No contributions provided."
  else if (contributions.filter (fun c => decide (c < 0))).any (fun c => decide (c ≠ 0)) then
    .error "Contributions have to be greater than or equal to 0."
  else if contributions.length + 1 ≠ 2 ^ Nat.log2 (contributions.length + 1) then
    .error "Invalid length of the contributions vector."
  else if ¬ check_if_contributions_are_monotone contributions
      (Nat.log2 (contributions.length + 1)) then
    .error "Contributions have to grow monotone by coalition size."
  else .ok ⟨contributions⟩

/-- Claim-side notion: the maximum payoff over the size-`i` coalitions. -/
def Game.sizeClassMax (g : Game) (i : Nat) : ℚ :=
  listMax ((g.coalitions.filter (fun s => decide (s.length = i))).map g.v)

/-- The sequence of block maxima that `monotoneGo` accumulates. -/
def maxSeq (contributions : List ℚ) (n : Nat) : List Nat → Nat → List ℚ
  | [], _ => []
  | i :: rest, startIdx =>
    listMax ((contributions.drop startIdx).take (n.choose i))
      :: maxSeq contributions n rest (n.choose i + startIdx)

/-- Embeds `BaseGame.get_one_coalitions`. -/
def Game.get_one_coalitions (g : Game) : List (List Nat) :=
  g.coalitions.filter (fun c => decide (c.length = 1))

/-- Embeds `self.coalitions[-1]` (the grand coalition; the list is never empty for a
constructed game). -/
def Game.grand (g : Game) : List Nat := (g.coalitions.getLast?).getD []

/-- Python dict indexing `d[k]` inside a fallible computation: a missing key
raises `KeyError`. -/
def getKey (t : List (List Nat × ℚ)) (k : List Nat) (f : ℚ → Except String ℚ) :
    Except String ℚ :=
  match dictLookup t k with
  | none => Except.error "KeyError"
  | some q => f q

/-- Embeds `Game.get_marginal_contribution(coalition, player)`; each `raise` is an
error value.  `if not player` is Python truthiness on the player id. -/
def Game.get_marginal_contribution (g : Game) (coalition : List Nat) (player : Nat) :
    Except String ℚ :=
  if coalition = [] then .error "No coalition provided."
  else if player = 0 then .error "No player provided."
  else if player ∉ coalition then .error "Player is not part of coalition."
  else
    getKey g.characteristic_function coalition (fun coalition_payoff =>
      if coalition.length = 1 then .ok coalition_payoff
      else
        getKey g.characteristic_function
          (coalition.filter (fun x => decide (x ≠ player)))
          (fun coalition_without_player_payoff =>
            .ok (coalition_payoff - coalition_without_player_payoff)))

/-- Embeds `Game.is_in_imputation_set(x)`: lower bounds are the singleton payoffs,
plus exact Pareto efficiency. -/
def Game.is_in_imputation_set (g : Game) (x : List ℚ) : Except String Bool :=
  if x.length ≠ g.players.length then
    .error "Input vector's length does not match the number of players in the game."
  else
    Except.ok
      (((x.zip (g.get_one_coalitions.map g.v)).all (fun pl => decide (pl.2 ≤ pl.1)))
        && decide (x.sum = g.v g.grand))

/-- Embeds `Game._get_core_bounds()`. -/
def Game._get_core_bounds (g : Game) : List (ℚ × ℚ) :=
  let lower_bounds := g.get_one_coalitions.map g.v
  let upper_bounds := (List.range lower_bounds.length).map (fun i =>
    g.v g.grand -
      ((((List.range lower_bounds.length).zip lower_bounds).filter
        (fun jl => decide (jl.1 ≠ i))).map (fun jl => jl.2)).sum)
  lower_bounds.zip upper_bounds

/-- Embeds `Game.is_in_core(x)`: the bound-based check plus exact Pareto efficiency. -/
def Game.is_in_core (g : Game) (x : List ℚ) : Except String Bool :=
  if x.length ≠ g.players.length then
    .error "Input vector's length does not match the number of players in the game."
  else
    Except.ok
      (((x.zip g._get_core_bounds).all
          (fun pb => decide (pb.2.1 ≤ pb.1 ∧ pb.1 ≤ pb.2.2)))
        && decide (x.sum = g.v g.grand))

/-- Embeds `Game.get_imputation_vertices()`.  `np.unique(X, axis=0)` removes duplicate
rows (and orders them); since C8 is stated up to row order, deduplication is
modelled with `List.dedup`. -/
def Game.get_imputation_vertices (g : Game) : List (List ℚ) :=
  if g.players.length = 1 then [[g.v [1]]]
  else
    let bounds := g._get_core_bounds
    (((List.range bounds.length).map (fun i =>
      ((List.range bounds.length).zip bounds).map
        (fun jb => if i = jb.1 then jb.2.2 else jb.2.1)))).dedup

/-- Claim-side candidate vertex for player `p`: `p` gets its upper bound
`v(N) - Σ_{q ≠ p} v({q})`, every other player `j` gets its lower bound
`v({j})`. -/
def imputationVertexSpec (g : Game) (p : Nat) : List ℚ :=
  g.players.map (fun j =>
    if j = p then
      g.v (grandCoalition g.numPlayers)
        - ((g.players.filter (fun q => decide (q ≠ p))).map (fun q => g.v [q])).sum
    else g.v [j])

/-- Embeds `Game.get_utopia_payoff_vector()`: `M_i = v(N) - v(N \\ {i})`, where
the missing-key fallback of the source (`v[t] if t in v else 0`) is exactly the
`getD 0` of `Game.v`. -/
def Game.get_utopia_payoff_vector (g : Game) : List ℚ :=
  g.players.map (fun player =>
    g.v g.grand - g.v (g.grand.filter (fun p => decide (p ≠ player))))

/-- Embeds `Game.get_minimal_rights_vector()`:
`m_i = max_{S : i ∈ S} (v(S) - Σ_{j ∈ S, j ≠ i} M_j)`, with the inner sum
ranging over `enumerate(M)` exactly as in the source. -/
def Game.get_minimal_rights_vector (g : Game) : List ℚ :=
  let M := g.get_utopia_payoff_vector
  g.players.map (fun player =>
    listMax ((g.coalitions.filter (fun s => decide (player ∈ s))).map (fun s =>
      g.v s - ((((List.range M.length).zip M).filter
        (fun iM => decide (iM.1 + 1 ≠ player) && decide (iM.1 + 1 ∈ s))).map
          (fun iM => iM.2)).sum)))

namespace ShapleyValue

/-- Embeds `ShapleyValue.compute(game)`. -/
def compute (g : Game) : List ℚ :=
  let n := g.players.length
  g.players.map (fun player =>
    (g.v [player] * (Nat.factorial (n - 1) : ℚ) +
      ((g.coalitions.filter (fun c => decide (player ∉ c))).map
        (fun c => (Nat.factorial c.length : ℚ) * (Nat.factorial (n - c.length - 1) : ℚ)
          * (g.v (insertPlayer player c) - g.v c))).sum) / (Nat.factorial n : ℚ))

end ShapleyValue

namespace BanzhafValue

/-- Embeds `BanzhafValue.__marginal_contributions_sum(game)`. -/
def marginal_contributions_sum (g : Game) : List ℚ :=
  g.players.map (fun player =>
    g.v [player] +
      ((g.coalitions.filter (fun c => decide (player ∉ c))).map
        (fun c => g.v (insertPlayer player c) - g.v c)).sum)

/-- Embeds `BanzhafValue.compute(game, normalized)`.  The normalization factor
`K = v(N) / Σ_j B_j` divides by the total swing sum; a zero denominator (a
division by zero in the source) is modelled as `none`. -/
def compute (g : Game) (normalized : Bool) : Option (List ℚ) :=
  let marg_sums := marginal_contributions_sum g
  if normalized then
    if marg_sums.sum = 0 then none
    else some (marg_sums.map (fun b => g.v g.grand / marg_sums.sum * b))
  else some (marg_sums.map (fun b => 1 / 2 ^ (g.players.length - 1) * b))

end BanzhafValue

namespace TauValue

/-- Embeds `TauValue.compute(game)`: the degenerate branches replace the
numerator/denominator pair, and the single linear equation
`alpha = constant_diff / M_diff` is `np.linalg.solve` on a `1 x 1` system,
which raises on a zero coefficient (modelled as `none`). -/
def compute (g : Game) : Option (List ℚ) :=
  let n := g.players.length
  if n = 1 then some [g.v [g.players.headD 0]]
  else
    let m := g.get_minimal_rights_vector
    let M := g.get_utopia_payoff_vector
    let sum_m := m.sum
    let sum_M := M.sum
    let M_diff := if sum_m = 0 then sum_M else if sum_M = 0 then sum_m else sum_m - sum_M
    let constant_diff :=
      if sum_m = 0 then g.v g.grand
      else if sum_M = 0 then g.v g.grand
      else g.v g.grand - sum_M
    if M_diff = 0 then none
    else some ((m.zip M).map (fun mM => mM.1 + constant_diff / M_diff * (mM.2 - mM.1)))

end TauValue

/-- A weighted voting game object: one integer weight per player and an
integer quorum (`WeightedVotingGame.__init__` stores both). -/
structure WeightedVotingGame where
  contributions : List Int
  quorum : Int
deriving DecidableEq

/-- Embeds the weighted-voting `self._players` (`num_players = len(contributions)`). -/
def WeightedVotingGame.players (G : WeightedVotingGame) : List Nat :=
  playersList G.contributions.length

/-- Embeds the weighted-voting `self._coalitions`. -/
def WeightedVotingGame.coalitions (G : WeightedVotingGame) : List (List Nat) :=
  coalitionsList G.contributions.length

/-- Embeds `sum(self.contributions[player - 1] for player in coalition)`. -/
def WeightedVotingGame.weightSum (G : WeightedVotingGame) (s : List Nat) : Int :=
  (s.map (fun player => G.contributions.getD (player - 1) 0)).sum

/-- Embeds `WeightedVotingGame.characteristic_function()` by its defining dict
comprehension: a coalition is worth `1` iff its weight sum meets the quorum. -/
def WeightedVotingGame.v (G : WeightedVotingGame) (s : List Nat) : ℚ :=
  if G.weightSum s ≥ G.quorum then 1 else 0

/-- Embeds `WeightedVotingGame.get_winning_coalitions()`. -/
def WeightedVotingGame.get_winning_coalitions (G : WeightedVotingGame) : List (List Nat) :=
  G.coalitions.filter (fun s => decide (G.weightSum s ≥ G.quorum))

/-- Embeds `WeightedVotingGame.get_pivot_players()` (default
`all_coalitions=False` branch): for each winning coalition, the members whose
removal drops the weight sum below the quorum. -/
def WeightedVotingGame.get_pivot_players (G : WeightedVotingGame) :
    List (List Nat × List Nat) :=
  G.get_winning_coalitions.map (fun w =>
    (w, w.filter (fun player =>
      decide (G.weightSum w - G.contributions.getD (player - 1) 0 < G.quorum))))

/-- Embeds `WeightedVotingGame.get_minimal_winning_coalitions()`: the winning
coalitions equal to their own pivot-player tuple. -/
def WeightedVotingGame.get_minimal_winning_coalitions (G : WeightedVotingGame) :
    List (List Nat) :=
  (G.get_pivot_players.filter (fun p => decide (p.1 = p.2))).map (fun p => p.1)

namespace ShapleyShubikIndex

/-- Embeds `ShapleyShubikIndex.compute(game)` (with its explicit 1-player
special case returning `[v[(1,)]]`). -/
def compute (G : WeightedVotingGame) : List ℚ :=
  let n := G.players.length
  if n = 1 then [G.v [1]]
  else
    G.players.map (fun player =>
      (((G.coalitions.filter (fun c => decide (player ∉ c))).map
        (fun c => (Nat.factorial c.length : ℚ) * (Nat.factorial (n - c.length - 1) : ℚ)
          * (G.v (insertPlayer player c) - G.v c))).sum) / (Nat.factorial n : ℚ))

end ShapleyShubikIndex

namespace PublicGoodIndex

/-- Embeds `PublicGoodIndex.compute(game)`.  The division
`len(W_m_j) / W_m_len` raises `ZeroDivisionError` when there is no minimal
winning coalition, and the final normalization divides by `pgi_sum`; both
zero-denominator situations are modelled as `none`. -/
def compute (G : WeightedVotingGame) : Option (List ℚ) :=
  let W_m := G.get_minimal_winning_coalitions
  if W_m.length = 0 then none
  else
    let pgi_list := G.players.map (fun player =>
      ((W_m.filter (fun c => decide (player ∈ c))).length : ℚ) / (W_m.length : ℚ))
    if pgi_list.sum = 0 then none
    else some (pgi_list.map (fun pgi => pgi / pgi_list.sum))

end PublicGoodIndex

theorem combinations_zero (l : List Nat) : combinations 0 l = [[]] := by
  cases l <;> rfl

theorem mem_combinations : ∀ {r : Nat} {l c : List Nat},
    c ∈ combinations r l ↔ c.Sublist l ∧ c.length = r := by
  intro r l
  induction l generalizing r with
  | nil =>
    intro c
    cases r with
    | zero => simp [combinations, List.sublist_nil]
    | succ r => simp [combinations, List.sublist_nil]; rintro rfl; simp
  | cons x xs ih =>
    intro c
    cases r with
    | zero =>
      simp only [combinations, List.mem_singleton]
      constructor
      · rintro rfl; exact ⟨List.nil_sublist _, rfl⟩
      · rintro ⟨-, hl⟩; exact List.length_eq_zero.mp hl
    | succ r =>
      simp only [combinations, List.mem_append, List.mem_map]
      constructor
      · rintro (⟨c0, hc0, rfl⟩ | hc)
        · obtain ⟨hsub, hlen⟩ := ih.mp hc0
          exact ⟨List.cons_sublist_cons.mpr hsub, by simp [hlen]⟩
        · obtain ⟨hsub, hlen⟩ := ih.mp hc
          exact ⟨hsub.trans (List.sublist_cons_self x xs), hlen⟩
      · rintro ⟨hsub, hlen⟩
        rcases List.sublist_cons_iff.mp hsub with h | ⟨c0, rfl, hc0⟩
        · exact Or.inr (ih.mpr ⟨h, hlen⟩)
        · exact Or.inl ⟨c0, ih.mpr ⟨hc0, by simpa using hlen⟩, rfl⟩

theorem length_of_mem_combinations {r : Nat} {l c : List Nat}
    (h : c ∈ combinations r l) : c.length = r :=
  (mem_combinations.mp h).2

theorem sublist_of_mem_combinations {r : Nat} {l c : List Nat}
    (h : c ∈ combinations r l) : c.Sublist l :=
  (mem_combinations.mp h).1

theorem length_combinations : ∀ (r : Nat) (l : List Nat),
    (combinations r l).length = l.length.choose r := by
  intro r l
  induction l generalizing r with
  | nil => cases r <;> simp [combinations]
  | cons x xs ih =>
    cases r with
    | zero => simp [combinations]
    | succ r =>
      simp [combinations, ih r, ih (r + 1), Nat.choose_succ_succ, Nat.add_comm]

theorem combinations_of_length_lt {r : Nat} {l : List Nat} (h : l.length < r) :
    combinations r l = [] := by
  have hlen : (combinations r l).length = 0 := by
    rw [length_combinations]; exact Nat.choose_eq_zero_of_lt h
  exact List.length_eq_zero.mp hlen

theorem nodup_combinations : ∀ {r : Nat} {l : List Nat},
    l.Nodup → (combinations r l).Nodup := by
  intro r l
  induction l generalizing r with
  | nil => cases r <;> simp [combinations]
  | cons x xs ih =>
    intro hnd
    obtain ⟨hx, hxs⟩ := List.nodup_cons.mp hnd
    cases r with
    | zero => simp [combinations]
    | succ r =>
      refine List.Nodup.append ?_ (ih hxs) ?_
      · exact (ih hxs).map (fun a b hab => by simpa using hab)
      · intro c hc1 hc2
        obtain ⟨c0, _, rfl⟩ := List.mem_map.mp hc1
        exact hx ((sublist_of_mem_combinations hc2).subset (List.mem_cons_self x c0))

theorem combinations_one : ∀ (l : List Nat),
    combinations 1 l = l.map (fun p => [p]) := by
  intro l
  induction l with
  | nil => rfl
  | cons x xs ih => simp [combinations, ih]

theorem combinations_self : ∀ (l : List Nat), combinations l.length l = [l] := by
  intro l
  induction l with
  | nil => rfl
  | cons x xs ih =>
    show combinations (xs.length + 1) (x :: xs) = [x :: xs]
    rw [combinations, combinations_of_length_lt (Nat.lt_succ_self _), ih]
    rfl

theorem pairwise_lex_combinations : ∀ {r : Nat} {l : List Nat},
    l.Pairwise (· < ·) → (combinations r l).Pairwise (List.Lex (· < ·)) := by
  intro r l
  induction l generalizing r with
  | nil => cases r <;> simp [combinations]
  | cons x xs ih =>
    intro hp
    obtain ⟨hx, hxs⟩ := List.pairwise_cons.mp hp
    cases r with
    | zero => simp [combinations]
    | succ r =>
      rw [combinations, List.pairwise_append]
      refine ⟨?_, ih hxs, ?_⟩
      · rw [List.pairwise_map]
        exact (ih hxs).imp (fun hab => List.Lex.cons hab)
      · intro c1 hc1 c2 hc2
        obtain ⟨c0, _, rfl⟩ := List.mem_map.mp hc1
        have hlen : c2.length = r + 1 := length_of_mem_combinations hc2
        cases c2 with
        | nil => simp at hlen
        | cons y ys =>
          have hy : y ∈ xs :=
            (sublist_of_mem_combinations hc2).subset (List.mem_cons_self y ys)
          exact List.Lex.rel (hx y hy)

theorem playersList_length (n : Nat) : (playersList n).length = n := by
  simp [playersList]

theorem playersList_nodup (n : Nat) : (playersList n).Nodup := List.nodup_range' 1 n

theorem playersList_sorted (n : Nat) : (playersList n).Pairwise (· < ·) :=
  List.pairwise_lt_range' 1 n

theorem mem_playersList {n p : Nat} : p ∈ playersList n ↔ 1 ≤ p ∧ p ≤ n := by
  unfold playersList
  rw [List.mem_range'_1]
  omega

theorem sublist_playersList_iff {n : Nat} {c : List Nat} :
    c.Sublist (playersList n) ↔ c.Pairwise (· < ·) ∧ ∀ p ∈ c, 1 ≤ p ∧ p ≤ n := by
  constructor
  · intro h
    exact ⟨(playersList_sorted n).sublist h,
      fun p hp => mem_playersList.mp (h.subset hp)⟩
  · rintro ⟨hsort, hmem⟩
    have hnd : c.Nodup := hsort.imp (fun hab => Nat.ne_of_lt hab)
    have hsp : c.Subperm (playersList n) :=
      List.subperm_of_subset hnd (fun p hp => mem_playersList.mpr (hmem p hp))
    exact List.sublist_of_subperm_of_sorted hsp (hsort.imp Nat.le_of_lt)
      ((playersList_sorted n).imp Nat.le_of_lt)

theorem mem_coalitionsList {n : Nat} {c : List Nat} :
    c ∈ coalitionsList n ↔ c ≠ [] ∧ c.Sublist (playersList n) := by
  unfold coalitionsList
  rw [List.mem_flatten]
  constructor
  · rintro ⟨b, hb, hc⟩
    obtain ⟨r, hr, rfl⟩ := List.mem_map.mp hb
    obtain ⟨hsub, hlen⟩ := mem_combinations.mp hc
    refine ⟨?_, hsub⟩
    intro h
    rw [h] at hlen
    simp at hlen
  · rintro ⟨hne, hsub⟩
    have hpos : 1 ≤ c.length := List.length_pos.mpr hne
    have hle : c.length ≤ n := by
      have := hsub.length_le
      rwa [playersList_length] at this
    refine ⟨combinations c.length (playersList n),
      List.mem_map.mpr ⟨c.length - 1, List.mem_range.mpr (by omega), by
        rw [Nat.sub_add_cancel hpos]⟩,
      mem_combinations.mpr ⟨hsub, rfl⟩⟩

theorem sum_map_range_eq (f : Nat → Nat) : ∀ n : Nat,
    ((List.range n).map f).sum = ∑ i ∈ Finset.range n, f i := by
  intro n
  induction n with
  | zero => simp
  | succ m ih =>
    rw [List.range_succ, Finset.sum_range_succ, List.map_append, List.sum_append, ih]
    simp

theorem sum_range_choose_succ (n : Nat) :
    ((List.range n).map (fun r => n.choose (r + 1))).sum = 2 ^ n - 1 := by
  rw [sum_map_range_eq]
  have h2 : (∑ i ∈ Finset.range (n + 1), n.choose i) = 2 ^ n := Nat.sum_range_choose n
  rw [Finset.sum_range_succ'] at h2
  simp only [Nat.choose_zero_right] at h2
  omega

theorem coalitionsList_length (n : Nat) : (coalitionsList n).length = 2 ^ n - 1 := by
  unfold coalitionsList
  rw [List.length_flatten, List.map_map]
  have h1 : (List.range n).map (List.length ∘ fun r => combinations (r + 1) (playersList n))
      = (List.range n).map (fun r => n.choose (r + 1)) := by
    refine List.map_congr_left ?_
    intro r _
    simp [length_combinations, playersList_length]
  rw [h1, sum_range_choose_succ]

theorem coalitionsList_nodup (n : Nat) : (coalitionsList n).Nodup := by
  unfold coalitionsList
  rw [List.nodup_flatten]
  constructor
  · intro b hb
    obtain ⟨r, _, rfl⟩ := List.mem_map.mp hb
    exact nodup_combinations (playersList_nodup n)
  · rw [List.pairwise_map]
    refine (List.pairwise_lt_range n).imp ?_
    intro r s hrs c hcr hcs
    have h1 := length_of_mem_combinations hcr
    have h2 := length_of_mem_combinations hcs
    omega

theorem coalitionsList_pairwise (n : Nat) : (coalitionsList n).Pairwise sizeLex := by
  unfold coalitionsList
  rw [List.pairwise_flatten]
  constructor
  · intro b hb
    obtain ⟨r, _, rfl⟩ := List.mem_map.mp hb
    refine List.Pairwise.imp_of_mem ?_
      (pairwise_lex_combinations (playersList_sorted n))
    intro c d hc hd hlex
    exact Or.inr ⟨by rw [length_of_mem_combinations hc, length_of_mem_combinations hd], hlex⟩
  · rw [List.pairwise_map]
    refine (List.pairwise_lt_range n).imp ?_
    intro r s hrs c hc d hd
    exact Or.inl (by
      rw [length_of_mem_combinations hc, length_of_mem_combinations hd]
      omega)

theorem combinations_playersList_self (n : Nat) :
    combinations n (playersList n) = [playersList n] := by
  have h := combinations_self (playersList n)
  rwa [playersList_length] at h

theorem coalitionsList_take (n : Nat) (hn : 1 ≤ n) :
    (coalitionsList n).take n = (playersList n).map (fun p => [p]) := by
  obtain ⟨m, rfl⟩ : ∃ m, n = m + 1 := ⟨n - 1, by omega⟩
  unfold coalitionsList
  rw [List.range_succ_eq_map, List.map_cons, List.flatten_cons]
  simp only [Nat.zero_add]
  have hone : combinations 1 (playersList (m + 1)) = (playersList (m + 1)).map (fun p => [p]) :=
    combinations_one _
  have hlen : (combinations 1 (playersList (m + 1))).length = m + 1 := by
    rw [hone, List.length_map, playersList_length]
  rw [List.take_append_of_le_length (by omega), hone,
    List.take_of_length_le (by rw [List.length_map, playersList_length])]

theorem coalitionsList_getLast (n : Nat) (hn : 1 ≤ n) :
    (coalitionsList n).getLast? = some (playersList n) := by
  obtain ⟨m, rfl⟩ : ∃ m, n = m + 1 := ⟨n - 1, by omega⟩
  unfold coalitionsList
  rw [List.range_succ, List.map_append, List.flatten_append]
  simp only [List.map_cons, List.map_nil, List.flatten_cons, List.flatten_nil,
    List.append_nil, combinations_playersList_self]
  exact List.getLast?_concat _

/-- C3: for every game with `n ≥ 1` players the coalition list has exactly
`2^n - 1` entries, contains every non-empty subset of `{1..n}` exactly once as
an ascending-sorted tuple, is ordered by ascending coalition size and within a
size class lexicographically, its first `n` entries are the singletons
`(1), ..., (n)`, and its last entry is the grand coalition `(1, ..., n)`. -/
theorem coalition_universe_spec (n : Nat) (hn : 1 ≤ n) :
    (coalitionsList n).length = 2 ^ n - 1 ∧
    (∀ c : List Nat, c ∈ coalitionsList n ↔
      (c ≠ [] ∧ c.Pairwise (· < ·) ∧ ∀ p ∈ c, 1 ≤ p ∧ p ≤ n)) ∧
    (coalitionsList n).Nodup ∧
    (coalitionsList n).Pairwise sizeLex ∧
    (coalitionsList n).take n = (playersList n).map (fun p => [p]) ∧
    (coalitionsList n).getLast? = some (playersList n) := by
  refine ⟨coalitionsList_length n, ?_, coalitionsList_nodup n,
    coalitionsList_pairwise n, coalitionsList_take n hn, coalitionsList_getLast n hn⟩
  intro c
  rw [mem_coalitionsList, sublist_playersList_iff]

/-- Witness for C3 at the concrete player count `n = 3`. -/
theorem coalition_universe_spec_witness :
    (coalitionsList 3).length = 2 ^ 3 - 1 ∧
    (∀ c : List Nat, c ∈ coalitionsList 3 ↔
      (c ≠ [] ∧ c.Pairwise (· < ·) ∧ ∀ p ∈ c, 1 ≤ p ∧ p ≤ 3)) ∧
    (coalitionsList 3).Nodup ∧
    (coalitionsList 3).Pairwise sizeLex ∧
    (coalitionsList 3).take 3 = (playersList 3).map (fun p => [p]) ∧
    (coalitionsList 3).getLast? = some (playersList 3) :=
  coalition_universe_spec 3 (by norm_num)

theorem dictLookup_eq_none_of_forall_ne {t : List (List Nat × ℚ)} {k : List Nat}
    (h : ∀ p ∈ t, p.1 ≠ k) : dictLookup t k = none := by
  induction t with
  | nil => rfl
  | cons p rest ih =>
    obtain ⟨k0, q0⟩ := p
    rw [dictLookup, if_neg (h (k0, q0) (List.mem_cons_self _ _))]
    exact ih (fun p hp => h p (List.mem_cons_of_mem _ hp))

theorem dictLookup_append_left {t₁ t₂ : List (List Nat × ℚ)} {k : List Nat}
    (h : dictLookup t₁ k = none) :
    dictLookup (t₁ ++ t₂) k = dictLookup t₂ k := by
  induction t₁ with
  | nil => rfl
  | cons p rest ih =>
    obtain ⟨k0, q0⟩ := p
    rw [dictLookup] at h
    by_cases hk : k0 = k
    · rw [if_pos hk] at h; exact absurd h (by simp)
    · rw [List.cons_append, dictLookup, if_neg hk]
      exact ih (by rwa [if_neg hk] at h)

theorem zip_append_general : ∀ (a b : List (List Nat)) (d : List ℚ),
    (a ++ b).zip d = a.zip (d.take a.length) ++ b.zip (d.drop a.length) := by
  intro a
  induction a with
  | nil => intro b d; simp
  | cons x a ih =>
    intro b d
    cases d with
    | nil => simp
    | cons y d => simp [ih]

theorem dictLookup_isSome_of_mem : ∀ {l₁ : List (List Nat)} {l₂ : List ℚ} {k : List Nat},
    k ∈ l₁ → l₁.length ≤ l₂.length → (dictLookup (l₁.zip l₂) k).isSome := by
  intro l₁
  induction l₁ with
  | nil => intro l₂ k h; simp at h
  | cons k0 l₁ ih =>
    intro l₂ k hk hlen
    cases l₂ with
    | nil => simp at hlen
    | cons q0 l₂ =>
      rw [List.zip_cons_cons, dictLookup]
      by_cases h0 : k0 = k
      · rw [if_pos h0]; rfl
      · rw [if_neg h0]
        rcases List.mem_cons.mp hk with h | h
        · exact absurd h.symm h0
        · exact ih h (by simpa using hlen)

theorem map_dictLookup_zip_append :
    ∀ {l₁ : List (List Nat)} {l₂ : List ℚ} (t : List (List Nat × ℚ)),
    l₁.Nodup → l₁.length ≤ l₂.length →
    l₁.map (fun k => (dictLookup (l₁.zip l₂ ++ t) k).getD 0) = l₂.take l₁.length := by
  intro l₁
  induction l₁ with
  | nil => intro l₂ t _ _; simp
  | cons k0 l₁ ih =>
    intro l₂ t hnd hlen
    cases l₂ with
    | nil => simp at hlen
    | cons q0 l₂ =>
      obtain ⟨hk0, hnd1⟩ := List.nodup_cons.mp hnd
      rw [List.zip_cons_cons, List.map_cons, List.cons_append]
      have hhead : dictLookup ((k0, q0) :: (l₁.zip l₂ ++ t)) k0 = some q0 := by
        rw [dictLookup, if_pos rfl]
      have htail : l₁.map (fun k => (dictLookup ((k0, q0) :: (l₁.zip l₂ ++ t)) k).getD 0)
          = l₁.map (fun k => (dictLookup (l₁.zip l₂ ++ t) k).getD 0) := by
        refine List.map_congr_left ?_
        intro k hk
        rw [dictLookup, if_neg (fun h : k0 = k => hk0 (h ▸ hk))]
      rw [hhead, htail, ih t hnd1 (by simpa using hlen)]
      simp

theorem offsetC_succ (n i : Nat) : offsetC n (i + 1) = offsetC n i + n.choose (i + 1) := by
  unfold offsetC
  rw [List.range_succ, List.map_append, List.sum_append]
  simp

theorem offsetC_le (n j : Nat) (hj : j ≤ n) : offsetC n j ≤ 2 ^ n - 1 := by
  unfold offsetC
  rw [sum_map_range_eq]
  calc (∑ k ∈ Finset.range j, n.choose (k + 1))
      ≤ ∑ k ∈ Finset.range n, n.choose (k + 1) :=
        Finset.sum_le_sum_of_subset (Finset.range_subset.mpr hj)
    _ = 2 ^ n - 1 := by rw [← sum_map_range_eq, sum_range_choose_succ]

theorem offsetC_add_choose_le (n i : Nat) (hi : i < n) :
    offsetC n i + n.choose (i + 1) ≤ 2 ^ n - 1 := by
  rw [← offsetC_succ]
  exact offsetC_le n (i + 1) hi

theorem coalitionsList_decomp (n i m : Nat) (hm : n = i + (m + 1)) :
    coalitionsList n =
      (((List.range i).map (fun r => combinations (r + 1) (playersList n)))).flatten
      ++ (combinations (i + 1) (playersList n)
        ++ (((List.range m).map
              (fun r => combinations (i + r + 2) (playersList n)))).flatten) := by
  subst hm
  unfold coalitionsList
  rw [List.range_add, List.range_succ_eq_map, List.map_append, List.flatten_append,
    List.map_map, List.map_cons, List.flatten_cons, List.map_map]
  congr 2

theorem length_flatten_blocks (n i : Nat) :
    ((((List.range i).map (fun r => combinations (r + 1) (playersList n)))).flatten).length
      = offsetC n i := by
  rw [List.length_flatten, List.map_map]
  unfold offsetC
  refine congrArg List.sum ?_
  refine List.map_congr_left ?_
  intro r _
  simp [length_combinations, playersList_length]

/-- The values of the characteristic function on the size-`i+1` coalitions are
exactly the `i`-th size-class slice of the contribution vector. -/
theorem map_v_sizeClass (g : Game) (hwf : g.Wf) (i : Nat) (hi : i < g.numPlayers) :
    (combinations (i + 1) (playersList g.numPlayers)).map g.v
      = (g.contributions.drop (offsetC g.numPlayers i)).take (g.numPlayers.choose (i + 1)) := by
  have hlen : g.contributions.length = 2 ^ g.numPlayers - 1 := by
    have h := hwf
    unfold Game.Wf at h
    omega
  obtain ⟨m, hm⟩ : ∃ m, g.numPlayers = i + (m + 1) := ⟨g.numPlayers - i - 1, by omega⟩
  have hdec := coalitionsList_decomp g.numPlayers i m hm
  have hpre := length_flatten_blocks g.numPlayers i
  have hblk : (combinations (i + 1) (playersList g.numPlayers)).length
      = g.numPlayers.choose (i + 1) := by
    rw [length_combinations, playersList_length]
  have harith := offsetC_add_choose_le g.numPlayers i hi
  have hdrop_len : g.numPlayers.choose (i + 1)
      ≤ (g.contributions.drop (offsetC g.numPlayers i)).length := by
    rw [List.length_drop, hlen]
    omega
  have hstep1 : (combinations (i + 1) (playersList g.numPlayers)).map g.v
      = (combinations (i + 1) (playersList g.numPlayers)).map
          (fun s => (dictLookup
            ((combinations (i + 1) (playersList g.numPlayers)
                ++ (((List.range m).map
                  (fun r => combinations (i + r + 2) (playersList g.numPlayers)))).flatten).zip
              (g.contributions.drop (offsetC g.numPlayers i))) s).getD 0) := by
    refine List.map_congr_left ?_
    intro s hs
    show (dictLookup g.characteristic_function s).getD 0 = _
    unfold Game.characteristic_function Game.coalitions
    rw [hdec, zip_append_general, hpre, dictLookup_append_left]
    refine dictLookup_eq_none_of_forall_ne ?_
    intro p hp
    have hp1 := (List.of_mem_zip hp).1
    rw [List.mem_flatten] at hp1
    obtain ⟨b, hb, hpb⟩ := hp1
    obtain ⟨r, hr, rfl⟩ := List.mem_map.mp hb
    have h1 := length_of_mem_combinations hpb
    have h2 := length_of_mem_combinations hs
    intro heq
    rw [heq] at h1
    rw [h1] at h2
    rw [List.mem_range] at hr
    omega
  rw [hstep1, zip_append_general]
  have hfin := @map_dictLookup_zip_append
    (combinations (i + 1) (playersList g.numPlayers))
    ((g.contributions.drop (offsetC g.numPlayers i)).take
      (combinations (i + 1) (playersList g.numPlayers)).length)
    ((((List.range m).map
        (fun r => combinations (i + r + 2) (playersList g.numPlayers)))).flatten.zip
      ((g.contributions.drop (offsetC g.numPlayers i)).drop
        (combinations (i + 1) (playersList g.numPlayers)).length))
    (nodup_combinations (playersList_nodup g.numPlayers))
    (by rw [List.length_take]; omega)
  rw [hfin, List.take_take, hblk]
  congr 1
  omega

theorem init_le_foldl_max : ∀ (ys : List ℚ) (a : ℚ), a ≤ ys.foldl max a := by
  intro ys
  induction ys with
  | nil => intro a; simp
  | cons y ys ih =>
    intro a
    rw [List.foldl_cons]
    exact le_trans (le_max_left a y) (ih (max a y))

theorem listMax_nonneg {l : List ℚ} (h : ∀ x ∈ l, 0 ≤ x) : 0 ≤ listMax l := by
  cases l with
  | nil => simp [listMax]
  | cons y ys =>
    rw [listMax]
    exact le_trans (h y (List.mem_cons_self _ _)) (init_le_foldl_max ys y)

theorem monotoneGo_eq_true_iff (c : List ℚ) (n : Nat) :
    ∀ (sizes : List Nat) (startIdx : Nat) (maxes : List ℚ),
    monotoneGo c n sizes startIdx maxes = true ↔
      ((∀ x ∈ maxes, ∀ y ∈ maxSeq c n sizes startIdx, ¬(x ≠ 0 ∧ y < x)) ∧
       (maxSeq c n sizes startIdx).Pairwise (fun x y => ¬(x ≠ 0 ∧ y < x))) := by
  intro sizes
  induction sizes with
  | nil => intro s maxes; simp [monotoneGo, maxSeq]
  | cons i rest ih =>
    intro s maxes
    rw [monotoneGo, maxSeq]
    by_cases hbad : ((maxes.filter
        (fun x => decide (listMax ((c.drop s).take (n.choose i)) < x))).any
          (fun x => decide (x ≠ 0))) = true
    · rw [if_pos hbad]
      refine iff_of_false (by simp) ?_
      rintro ⟨h1, -⟩
      rw [List.any_eq_true] at hbad
      obtain ⟨x, hxf, hx0⟩ := hbad
      obtain ⟨hxmem, hxlt⟩ := List.mem_filter.mp hxf
      exact h1 x hxmem (listMax ((c.drop s).take (n.choose i)))
        (List.mem_cons_self _ _) ⟨by simpa using hx0, by simpa using hxlt⟩
    · rw [if_neg hbad, ih]
      have hok : ∀ x ∈ maxes, ¬(x ≠ 0 ∧ listMax ((c.drop s).take (n.choose i)) < x) := by
        intro x hx hcontra
        refine hbad ?_
        rw [List.any_eq_true]
        exact ⟨x, List.mem_filter.mpr ⟨hx, by simpa using hcontra.2⟩, by simpa using hcontra.1⟩
      constructor
      · rintro ⟨h1, h2⟩
        refine ⟨?_, ?_⟩
        · intro x hx y hy
          rcases List.mem_cons.mp hy with rfl | hy1
          · exact hok x hx
          · exact h1 x (List.mem_append_left _ hx) y hy1
        · rw [List.pairwise_cons]
          exact ⟨fun y hy => h1 _ (List.mem_append_right _ (List.mem_singleton_self _)) y hy, h2⟩
      · rintro ⟨h1, h2⟩
        rw [List.pairwise_cons] at h2
        refine ⟨?_, h2.2⟩
        intro x hx y hy
        rcases List.mem_append.mp hx with hx1 | hx1
        · exact h1 x hx1 y (List.mem_cons_of_mem _ hy)
        · rw [List.mem_singleton] at hx1
          subst hx1
          exact h2.1 y hy

theorem offsetC_zero (n : Nat) : offsetC n 0 = 0 := rfl

theorem maxSeq_shift (c : List ℚ) (n : Nat) : ∀ (k i : Nat),
    maxSeq c n (List.range' (i + 1) k) (offsetC n i)
      = (List.range k).map
          (fun j => listMax ((c.drop (offsetC n (i + j))).take (n.choose (i + j + 1)))) := by
  intro k
  induction k with
  | zero => intro i; simp [maxSeq]
  | succ k ih =>
    intro i
    rw [List.range'_succ, maxSeq]
    have h1 : n.choose (i + 1) + offsetC n i = offsetC n (i + 1) := by
      rw [offsetC_succ]; omega
    rw [h1, ih (i + 1), List.range_succ_eq_map, List.map_cons, List.map_map]
    congr 1
    refine List.map_congr_left ?_
    intro j _
    show listMax ((c.drop (offsetC n (i + 1 + j))).take (n.choose (i + 1 + j + 1)))
      = listMax ((c.drop (offsetC n (i + (j + 1)))).take (n.choose (i + (j + 1) + 1)))
    rw [show i + 1 + j = i + (j + 1) from by omega]

theorem flatten_map_single {α : Type} (f : Nat → List α) (n k : Nat) (hk : k < n)
    (h : ∀ r, r < n → r ≠ k → f r = []) : ((List.range n).map f).flatten = f k := by
  induction n with
  | zero => omega
  | succ m ih =>
    rw [List.range_succ, List.map_append, List.flatten_append]
    by_cases hkm : k = m
    · subst hkm
      have hpre : (((List.range k).map f)).flatten = [] := by
        rw [List.flatten_eq_nil_iff]
        intro l hl
        obtain ⟨r, hr, rfl⟩ := List.mem_map.mp hl
        rw [List.mem_range] at hr
        exact h r (by omega) (by omega)
      simp [hpre]
    · have hm : f m = [] := h m (by omega) (fun hh => hkm hh.symm)
      simp only [List.map_cons, List.map_nil, List.flatten_cons, List.flatten_nil,
        List.append_nil, hm]
      exact ih (by omega) (fun r hr hrk => h r (by omega) hrk)

theorem filter_coalitionsList (n i : Nat) (hi : i < n) :
    (coalitionsList n).filter (fun s => decide (s.length = i + 1))
      = combinations (i + 1) (playersList n) := by
  unfold coalitionsList
  rw [List.filter_flatten, List.map_map]
  have hblocks : ∀ r, r < n → r ≠ i →
      ((combinations (r + 1) (playersList n)).filter
        (fun s => decide (s.length = i + 1))) = [] := by
    intro r _ hri
    rw [List.filter_eq_nil_iff]
    intro a ha hdec
    have hla := length_of_mem_combinations ha
    rw [decide_eq_true_eq] at hdec
    omega
  have hfin : ((List.range n).map (fun r => (combinations (r + 1) (playersList n)).filter
      (fun s => decide (s.length = i + 1)))).flatten
      = combinations (i + 1) (playersList n) := by
    rw [flatten_map_single _ n i hi hblocks, List.filter_eq_self]
    intro a ha
    rw [decide_eq_true_eq]
    exact length_of_mem_combinations ha
  exact hfin

theorem maxSeq_eq_sizeClassMax (g : Game) (hwf : g.Wf) :
    maxSeq g.contributions g.numPlayers (List.range' 1 g.numPlayers) 0
      = (List.range g.numPlayers).map (fun j => g.sizeClassMax (j + 1)) := by
  have h0 := maxSeq_shift g.contributions g.numPlayers g.numPlayers 0
  rw [offsetC_zero] at h0
  rw [h0]
  refine List.map_congr_left ?_
  intro j hj
  rw [List.mem_range] at hj
  simp only [Nat.zero_add]
  unfold Game.sizeClassMax Game.coalitions
  rw [filter_coalitionsList g.numPlayers j hj, map_v_sizeClass g hwf j hj]

theorem sizeClassMax_nonneg (g : Game) (hwf : g.Wf) (hnn : ∀ x ∈ g.contributions, 0 ≤ x)
    (j : Nat) (hj : j < g.numPlayers) : 0 ≤ g.sizeClassMax (j + 1) := by
  unfold Game.sizeClassMax Game.coalitions
  rw [filter_coalitionsList g.numPlayers j hj, map_v_sizeClass g hwf j hj]
  refine listMax_nonneg ?_
  intro x hx
  exact hnn x (((List.take_sublist _ _).trans (List.drop_sublist _ _)).subset hx)

theorem check_monotone_iff (g : Game) (hwf : g.Wf)
    (hnn : ∀ x ∈ g.contributions, 0 ≤ x) :
    check_if_contributions_are_monotone g.contributions g.numPlayers = true ↔
      ∀ i j : Nat, 1 ≤ i → i ≤ j → j ≤ g.numPlayers →
        g.sizeClassMax i ≤ g.sizeClassMax j := by
  unfold check_if_contributions_are_monotone
  rw [monotoneGo_eq_true_iff, maxSeq_eq_sizeClassMax g hwf, List.pairwise_map]
  constructor
  · rintro ⟨-, hp⟩
    intro i j h1 hij hjn
    rcases Nat.eq_or_lt_of_le hij with rfl | hlt
    · exact le_refl _
    · have hpair := List.pairwise_iff_getElem.mp hp (i - 1) (j - 1)
        (by simpa using by omega) (by simpa using by omega) (by omega)
      simp only [List.getElem_range] at hpair
      rw [show i - 1 + 1 = i from by omega, show j - 1 + 1 = j from by omega] at hpair
      have hy0 : 0 ≤ g.sizeClassMax j := by
        have := sizeClassMax_nonneg g hwf hnn (j - 1) (by omega)
        rwa [show j - 1 + 1 = j from by omega] at this
      by_cases hx0 : g.sizeClassMax i = 0
      · rw [hx0]; exact hy0
      · by_contra hle
        exact hpair ⟨hx0, by linarith [not_le.mp hle]⟩
  · intro hcl
    refine ⟨by simp, ?_⟩
    rw [List.pairwise_iff_getElem]
    intro a b ha hb hab
    simp only [List.getElem_range]
    have hlen : (List.range g.numPlayers).length = g.numPlayers := List.length_range _
    rw [hlen] at ha hb
    have hle := hcl (a + 1) (b + 1) (by omega) (by omega) (by omega)
    rintro ⟨-, hlt⟩
    exact absurd hle (not_le.mpr hlt)

/-- C2: TU game construction errors exactly when the contribution vector is
empty, or its length is not `2^n - 1` for some `n ≥ 1`, or some contribution is
negative, or the per-size-class maxima fail to be monotone non-decreasing;
otherwise it succeeds with the game holding exactly these contributions (and on
failure no `Game` value is produced at all). -/
theorem game_make_spec (contributions : List ℚ) :
    Game.make contributions = Except.ok (Game.mk contributions) ↔
      (contributions ≠ [] ∧
        (∃ n : Nat, 1 ≤ n ∧ contributions.length = 2 ^ n - 1) ∧
        (∀ x ∈ contributions, 0 ≤ x) ∧
        (∀ i j : Nat, 1 ≤ i → i ≤ j → j ≤ (Game.mk contributions).numPlayers →
          (Game.mk contributions).sizeClassMax i ≤ (Game.mk contributions).sizeClassMax j)) := by
  unfold Game.make
  by_cases h1 : contributions = []
  · rw [if_pos h1]
    exact iff_of_false (by simp) (by rintro ⟨hne, -⟩; exact hne h1)
  · rw [if_neg h1]
    by_cases h2 : ((contributions.filter (fun c => decide (c < 0))).any
        (fun c => decide (c ≠ 0))) = true
    · rw [if_pos h2]
      refine iff_of_false (by simp) ?_
      rintro ⟨-, -, hnn, -⟩
      rw [List.any_eq_true] at h2
      obtain ⟨x, hxf, hx0⟩ := h2
      obtain ⟨hxm, hxlt⟩ := List.mem_filter.mp hxf
      rw [decide_eq_true_eq] at hxlt
      exact absurd (hnn x hxm) (not_le.mpr hxlt)
    · rw [if_neg h2]
      have hnn : ∀ x ∈ contributions, 0 ≤ x := by
        intro x hx
        by_contra hneg
        rw [not_le] at hneg
        refine h2 ?_
        rw [List.any_eq_true]
        refine ⟨x, List.mem_filter.mpr ⟨hx, by simpa using hneg⟩, ?_⟩
        rw [decide_eq_true_eq]
        exact ne_of_lt hneg
      by_cases h3 : contributions.length + 1 = 2 ^ Nat.log2 (contributions.length + 1)
      · rw [if_neg (fun hc => hc h3)]
        have hwf : (Game.mk contributions).Wf := h3
        have hlen1 : 1 ≤ contributions.length := List.length_pos.mpr h1
        have hnpos : 1 ≤ (Game.mk contributions).numPlayers := by
          show 1 ≤ Nat.log2 (contributions.length + 1)
          by_contra h
          have h0 : Nat.log2 (contributions.length + 1) = 0 :=
            Nat.lt_one_iff.mp (Nat.not_le.mp h)
          rw [h0, pow_zero] at h3
          omega
        by_cases h4 : check_if_contributions_are_monotone contributions
            (Nat.log2 (contributions.length + 1)) = true
        · rw [if_neg (by simp [h4])]
          refine iff_of_true rfl ?_
          refine ⟨h1, ⟨(Game.mk contributions).numPlayers, hnpos, ?_⟩, hnn, ?_⟩
          · show contributions.length = 2 ^ Nat.log2 (contributions.length + 1) - 1
            exact Nat.eq_sub_of_add_eq h3
          · exact (check_monotone_iff (Game.mk contributions) hwf hnn).mp h4
        · rw [if_pos (by simpa using h4)]
          refine iff_of_false (by simp) ?_
          rintro ⟨-, -, -, hmon⟩
          exact h4 ((check_monotone_iff (Game.mk contributions) hwf hnn).mpr hmon)
      · rw [if_pos h3]
        refine iff_of_false (by simp) ?_
        rintro ⟨-, ⟨n, hn1, hnlen⟩, -⟩
        have hpow : 0 < 2 ^ n := Nat.pos_pow_of_pos n (by omega)
        have hplus : contributions.length + 1 = 2 ^ n := by omega
        rw [hplus, Nat.log2_two_pow] at h3
        exact h3 rfl

/-- Sanity check: the spec's monotonicity-rejection example `[1,2,3,2,4,5,3]`
is refused by the constructor, and a monotone vector is accepted. -/
theorem game_make_examples :
    Game.make [1, 2, 3, 2, 4, 5, 3] =
      Except.error "Contributions have to grow monotone by coalition size." ∧
    Game.make [2, 4, 5, 18, 14, 9, 24] =
      Except.ok (Game.mk [2, 4, 5, 18, 14, 9, 24]) := by
  constructor <;>
    norm_num [Game.make, Nat.log2, check_if_contributions_are_monotone, monotoneGo,
      listMax, List.range', List.filter, List.any, Nat.choose] <;>
    (intro h; simp at h)

theorem grand_eq (g : Game) (hn : 1 ≤ g.numPlayers) :
    g.grand = grandCoalition g.numPlayers := by
  unfold Game.grand Game.coalitions grandCoalition
  rw [coalitionsList_getLast g.numPlayers hn]
  rfl

theorem get_one_coalitions_eq (g : Game) (hn : 1 ≤ g.numPlayers) :
    g.get_one_coalitions = (playersList g.numPlayers).map (fun p => [p]) := by
  unfold Game.get_one_coalitions Game.coalitions
  have h := filter_coalitionsList g.numPlayers 0 hn
  rw [h, combinations_one]

theorem v_lookup_eq_some (g : Game) (hwf : g.Wf) {s : List Nat}
    (hs : s ∈ g.coalitions) : dictLookup g.characteristic_function s = some (g.v s) := by
  have hlen : g.coalitions.length ≤ g.contributions.length := by
    show (coalitionsList g.numPlayers).length ≤ g.contributions.length
    rw [coalitionsList_length]
    have h := hwf
    unfold Game.Wf at h
    omega
  have hsome := dictLookup_isSome_of_mem hs hlen
  obtain ⟨q, hq⟩ := Option.isSome_iff_exists.mp hsome
  show dictLookup (g.coalitions.zip g.contributions) s
    = some ((dictLookup (g.coalitions.zip g.contributions) s).getD 0)
  rw [hq]
  rfl

theorem getKey_some {t : List (List Nat × ℚ)} {k : List Nat} {q : ℚ}
    {f : ℚ → Except String ℚ} (h : dictLookup t k = some q) : getKey t k f = f q := by
  unfold getKey
  rw [h]

theorem filter_ne_mem_coalitions (g : Game) {s : List Nat} (hs : s ∈ g.coalitions)
    {p : Nat} (hlen2 : 2 ≤ s.length) :
    s.filter (fun x => decide (x ≠ p)) ∈ g.coalitions := by
  rw [show g.coalitions = coalitionsList g.numPlayers from rfl, mem_coalitionsList] at hs ⊢
  obtain ⟨hne, hsub⟩ := hs
  have hnd : s.Nodup := (playersList_nodup g.numPlayers).sublist hsub
  refine ⟨?_, (List.filter_sublist s).trans hsub⟩
  intro hnil
  rw [List.filter_eq_nil_iff] at hnil
  match s, hlen2 with
  | a :: b :: rest, _ =>
    have ha : a = p := by
      have := hnil a (List.mem_cons_self _ _)
      simpa using this
    have hb : b = p := by
      have := hnil b (List.mem_cons_of_mem _ (List.mem_cons_self _ _))
      simpa using this
    have : a ≠ b := by
      have := List.pairwise_cons.mp hnd
      exact this.1 b (List.mem_cons_self _ _)
    exact this (ha.trans hb.symm)

/-- C9: on a coalition from the game's universe, `get_marginal_contribution`
errors exactly when the coalition is empty, the player id is invalid, or the
player is not a member; otherwise it returns `v(C) - v(C \ {p})` for
`|C| ≥ 2` and `v(C)` for a singleton `C`. -/
theorem get_marginal_contribution_spec (g : Game) (hwf : g.Wf)
    (coalition : List Nat) (hc : coalition ∈ g.coalitions) (player : Nat) :
    ((∃ q, g.get_marginal_contribution coalition player = Except.ok q) ↔
      ¬(coalition = [] ∨ player ∉ g.players ∨ player ∉ coalition)) ∧
    (player ∈ coalition →
      g.get_marginal_contribution coalition player =
        Except.ok (if coalition.length = 1 then g.v coalition
          else g.v coalition - g.v (coalition.filter (fun x => decide (x ≠ player))))) := by
  have hc0 := hc
  rw [show g.coalitions = coalitionsList g.numPlayers from rfl, mem_coalitionsList] at hc0
  obtain ⟨hne, hsub⟩ := hc0
  have hmem_players : player ∈ coalition → player ∈ g.players := by
    intro hp
    exact hsub.subset hp
  have hval : player ∈ coalition →
      g.get_marginal_contribution coalition player =
        Except.ok (if coalition.length = 1 then g.v coalition
          else g.v coalition - g.v (coalition.filter (fun x => decide (x ≠ player)))) := by
    intro hp
    have hpz : player ≠ 0 := by
      have := mem_playersList.mp (hmem_players hp)
      omega
    unfold Game.get_marginal_contribution
    rw [if_neg hne, if_neg hpz, if_neg (by simpa using hp),
      getKey_some (v_lookup_eq_some g hwf hc)]
    by_cases h1 : coalition.length = 1
    · rw [if_pos h1, if_pos h1]
    · have hlen2 : 2 ≤ coalition.length := by
        have : 1 ≤ coalition.length := List.length_pos.mpr hne
        omega
      rw [if_neg h1,
        getKey_some (v_lookup_eq_some g hwf (filter_ne_mem_coalitions g hc hlen2)), if_neg h1]
  refine ⟨?_, hval⟩
  constructor
  · rintro ⟨q, hq⟩
    rintro (h | h | h)
    · unfold Game.get_marginal_contribution at hq
      rw [if_pos h] at hq
      exact absurd hq (by simp)
    · refine h ?_
      by_contra hpc
      refine h ?_
      refine hmem_players ?_
      by_contra hpc2
      unfold Game.get_marginal_contribution at hq
      rw [if_neg hne] at hq
      by_cases hz : player = 0
      · rw [if_pos hz] at hq
        exact absurd hq (by simp)
      · rw [if_neg hz, if_pos hpc2] at hq
        exact absurd hq (by simp)
    · unfold Game.get_marginal_contribution at hq
      rw [if_neg hne] at hq
      by_cases hz : player = 0
      · rw [if_pos hz] at hq
        exact absurd hq (by simp)
      · rw [if_neg hz, if_pos h] at hq
        exact absurd hq (by simp)
  · intro h
    push_neg at h
    exact ⟨_, hval h.2.2⟩

/-- Witness for C9 on the 2-player game `[1, 2, 4]`, coalition `(1, 2)`. -/
theorem get_marginal_contribution_spec_witness :
    (Game.mk [1, 2, 4]).Wf ∧ [1, 2] ∈ (Game.mk [1, 2, 4]).coalitions ∧
    ((∃ q, (Game.mk [1, 2, 4]).get_marginal_contribution [1, 2] 2 = Except.ok q) ↔
      ¬([1, 2] = ([] : List Nat) ∨ 2 ∉ (Game.mk [1, 2, 4]).players ∨ 2 ∉ [1, 2])) ∧
    (2 ∈ [1, 2] →
      (Game.mk [1, 2, 4]).get_marginal_contribution [1, 2] 2 =
        Except.ok (if ([1, 2] : List Nat).length = 1 then (Game.mk [1, 2, 4]).v [1, 2]
          else (Game.mk [1, 2, 4]).v [1, 2]
            - (Game.mk [1, 2, 4]).v (([1, 2] : List Nat).filter (fun x => decide (x ≠ 2))))) := by
  have hwf : (Game.mk [1, 2, 4]).Wf := by
    show (3 : Nat) + 1 = 2 ^ Nat.log2 (3 + 1)
    norm_num [Nat.log2]
  have hnp : (Game.mk [1, 2, 4]).numPlayers = 2 := by
    show Nat.log2 (3 + 1) = 2
    norm_num [Nat.log2]
  have hc : [1, 2] ∈ (Game.mk [1, 2, 4]).coalitions := by
    show [1, 2] ∈ coalitionsList (Game.mk [1, 2, 4]).numPlayers
    rw [hnp]
    decide
  exact ⟨hwf, hc,
    (get_marginal_contribution_spec (Game.mk [1, 2, 4]) hwf [1, 2] hc 2).1,
    (get_marginal_contribution_spec (Game.mk [1, 2, 4]) hwf [1, 2] hc 2).2⟩

theorem all_zip_lower_of_all_zip_bounds :
    ∀ (x lbs ubs : List ℚ), lbs.length = ubs.length →
    (x.zip (lbs.zip ubs)).all (fun pb => decide (pb.2.1 ≤ pb.1 ∧ pb.1 ≤ pb.2.2)) = true →
    (x.zip lbs).all (fun pl => decide (pl.2 ≤ pl.1)) = true := by
  intro x
  induction x with
  | nil => intro lbs ubs _ _; simp
  | cons p x ih =>
    intro lbs ubs hlen hall
    cases lbs with
    | nil => simp
    | cons lb lbs =>
      cases ubs with
      | nil => simp at hlen
      | cons ub ubs =>
        simp only [List.zip_cons_cons, List.all_cons, Bool.and_eq_true] at hall ⊢
        refine ⟨?_, ih lbs ubs (by simpa using hlen) hall.2⟩
        have h1 := hall.1
        rw [decide_eq_true_eq] at h1
        rw [decide_eq_true_eq]
        exact h1.1

/-- C10: on a payoff vector of matching length, membership in the (bound-based)
core implies membership in the imputation set: the core test keeps the same
singleton lower bounds and the same exact-sum condition and only adds upper
bounds. -/
theorem is_in_core_subset_imputation (g : Game) (x : List ℚ)
    (h : g.is_in_core x = Except.ok true) :
    g.is_in_imputation_set x = Except.ok true := by
  unfold Game.is_in_core at h
  unfold Game.is_in_imputation_set
  by_cases hlen : x.length ≠ g.players.length
  · rw [if_pos hlen] at h
    exact absurd h (by simp)
  · rw [if_neg hlen] at h
    rw [if_neg hlen]
    simp only [Except.ok.injEq, Bool.and_eq_true] at h
    obtain ⟨hall, hsum⟩ := h
    refine congrArg Except.ok ?_
    rw [Bool.and_eq_true]
    refine ⟨?_, hsum⟩
    exact all_zip_lower_of_all_zip_bounds x _ _ (by simp) hall

/-- Witness for C10 on the game `[1, 1, 3]` with payoff vector `[1, 2]`. -/
theorem is_in_core_subset_imputation_witness :
    (Game.mk [1, 1, 3]).is_in_core [1, 2] = Except.ok true ∧
    (Game.mk [1, 1, 3]).is_in_imputation_set [1, 2] = Except.ok true := by
  have hnp : (Game.mk [1, 1, 3]).numPlayers = 2 := by
    show Nat.log2 (3 + 1) = 2
    norm_num [Nat.log2]
  have hcore : (Game.mk [1, 1, 3]).is_in_core [1, 2] = Except.ok true := by
    norm_num [Game.is_in_core, Game._get_core_bounds, Game.get_one_coalitions, Game.grand,
      Game.players, Game.coalitions, Game.v, Game.characteristic_function, Game.numPlayers,
      Nat.log2, coalitionsList, playersList, combinations, List.range',
      dictLookup, List.range_succ, List.filter]
  exact ⟨hcore, is_in_core_subset_imputation _ _ hcore⟩

theorem zip_self_map {α β : Type} (l : List α) (f : α → β) :
    l.zip (l.map f) = l.map (fun a => (a, f a)) := by
  induction l with
  | nil => rfl
  | cons a l ih => simp [ih]

theorem one_coalitions_map_v (g : Game) (hn : 1 ≤ g.numPlayers) :
    g.get_one_coalitions.map g.v
      = (List.range g.numPlayers).map (fun j => g.v [1 + j]) := by
  rw [get_one_coalitions_eq g hn]
  unfold playersList
  rw [List.range'_eq_map_range, List.map_map, List.map_map]
  rfl

theorem imputation_vertex_row (g : Game) (hn : 1 ≤ g.numPlayers)
    (i : Nat) :
    ((List.range g._get_core_bounds.length).zip g._get_core_bounds).map
        (fun jb => if i = jb.1 then jb.2.2 else jb.2.1)
      = imputationVertexSpec g (i + 1) := by
  have hlbs := one_coalitions_map_v g hn
  have hlbslen : (g.get_one_coalitions.map g.v).length = g.numPlayers := by
    rw [hlbs, List.length_map, List.length_range]
  have hsum : ∀ j : Nat,
      ((((List.range g.numPlayers).zip
          (g.get_one_coalitions.map g.v)).filter
        (fun jl => decide (jl.1 ≠ j))).map (fun jl => jl.2)).sum
      = (((List.range g.numPlayers).filter (fun k => decide (k ≠ j))).map
          (fun k => g.v [1 + k])).sum := by
    intro j
    rw [hlbs, zip_self_map, List.filter_map, List.map_map]
    rfl
  have hbounds : g._get_core_bounds
      = (List.range g.numPlayers).map (fun j =>
          (g.v [1 + j], g.v g.grand
            - (((List.range g.numPlayers).filter (fun k => decide (k ≠ j))).map
                (fun k => g.v [1 + k])).sum)) := by
    show (g.get_one_coalitions.map g.v).zip _ = _
    have hub : (List.range (g.get_one_coalitions.map g.v).length).map (fun j =>
        g.v g.grand -
          ((((List.range (g.get_one_coalitions.map g.v).length).zip
              (g.get_one_coalitions.map g.v)).filter
            (fun jl => decide (jl.1 ≠ j))).map (fun jl => jl.2)).sum)
        = (List.range g.numPlayers).map (fun j => g.v g.grand
            - (((List.range g.numPlayers).filter (fun k => decide (k ≠ j))).map
                (fun k => g.v [1 + k])).sum) := by
      rw [hlbslen]
      refine List.map_congr_left ?_
      intro j _
      rw [hsum j]
    rw [hub, hlbs, List.zip_map']
  rw [hbounds, List.length_map, List.length_range, zip_self_map, List.map_map]
  unfold imputationVertexSpec Game.players playersList
  rw [List.range'_eq_map_range, List.map_map, List.filter_map, List.map_map]
  refine List.map_congr_left ?_
  intro j hj
  simp only [Function.comp_def]
  show (if i = j then
      g.v g.grand - (((List.range g.numPlayers).filter (fun k => decide (k ≠ j))).map
        (fun k => g.v [1 + k])).sum
    else g.v [1 + j])
    = (if 1 + j = i + 1 then
      g.v (grandCoalition g.numPlayers)
        - (((List.range g.numPlayers).filter (fun k => decide (1 + k ≠ i + 1))).map
            (fun k => g.v [1 + k])).sum
    else g.v [1 + j])
  have hfil : ((List.range g.numPlayers).filter (fun k => decide (1 + k ≠ i + 1)))
      = ((List.range g.numPlayers).filter (fun k => decide (k ≠ i))) := by
    refine List.filter_congr ?_
    intro k _
    refine decide_eq_decide.mpr ?_
    omega
  by_cases hij : i = j
  · subst hij
    rw [if_pos rfl, if_pos (by omega), hfil, grand_eq g hn]
  · rw [if_neg hij, if_neg (by omega)]

/-- C8: for a 1-player game the imputation vertex list is `[[v({1})]]`; for
`n > 1` players it consists, up to row order and with duplicates removed, of
exactly the `n` candidate vertices where player `p` is at its upper bound and
everyone else at their singleton lower bound. -/
theorem get_imputation_vertices_spec (g : Game) :
    (g.numPlayers = 1 → g.get_imputation_vertices = [[g.v [1]]]) ∧
    (1 < g.numPlayers →
      (g.get_imputation_vertices.Nodup ∧
       ∀ x : List ℚ, x ∈ g.get_imputation_vertices ↔
         ∃ p ∈ g.players, x = imputationVertexSpec g p)) := by
  constructor
  · intro h1
    unfold Game.get_imputation_vertices
    rw [if_pos (by rw [show g.players = playersList g.numPlayers from rfl,
      playersList_length, h1])]
  · intro h1
    unfold Game.get_imputation_vertices
    rw [if_neg (by rw [show g.players = playersList g.numPlayers from rfl,
      playersList_length]; omega)]
    refine ⟨List.nodup_dedup _, ?_⟩
    intro x
    rw [List.mem_dedup, List.mem_map]
    constructor
    · rintro ⟨i, hi, rfl⟩
      rw [List.mem_range] at hi
      have hblen : g._get_core_bounds.length = g.numPlayers := by
        unfold Game._get_core_bounds
        rw [List.length_zip, one_coalitions_map_v g (by omega), List.length_map,
          List.length_map, List.length_range, List.length_range, Nat.min_self]
      rw [hblen] at hi
      refine ⟨i + 1, ?_, ?_⟩
      · show i + 1 ∈ playersList g.numPlayers
        rw [mem_playersList]
        omega
      · exact imputation_vertex_row g (by omega) i
    · rintro ⟨p, hp, rfl⟩
      have hp2 : p ∈ playersList g.numPlayers := hp
      rw [mem_playersList] at hp2
      have hblen : g._get_core_bounds.length = g.numPlayers := by
        unfold Game._get_core_bounds
        rw [List.length_zip, one_coalitions_map_v g (by omega), List.length_map,
          List.length_map, List.length_range, List.length_range, Nat.min_self]
      refine ⟨p - 1, ?_, ?_⟩
      · rw [List.mem_range, hblen]
        omega
      · have h := imputation_vertex_row g (by omega) (p - 1)
        rw [show p - 1 + 1 = p from by omega] at h
        exact h

theorem sum_map_mul (K : ℚ) : ∀ l : List ℚ, (l.map (fun b => K * b)).sum = K * l.sum := by
  intro l
  induction l with
  | nil => simp
  | cons x l ih => simp [ih, mul_add]

/-- C1 (code bug): on the monotone, non-negative 3-player game
`[0, 0, 0, 6, 6, 1, 8]` the tau-value computation returns `(37/7, 6/7, 6/7)`.
Those components sum to `7`, but the grand coalition is worth `8`: the
returned vector violates the Pareto-efficiency constraint `Σ τ_j = v(N)` that
both the claim and the method docstring state (the code solves for the
`α·m + (1-α)·M` parametrization but then returns `m + α·(M - m)`). -/
theorem tau_value_not_efficient :
    TauValue.compute (Game.mk [0, 0, 0, 6, 6, 1, 8]) = some [37/7, 6/7, 6/7] ∧
    ([37/7, 6/7, (6:ℚ)/7] : List ℚ).sum = 7 ∧
    (Game.mk [0, 0, 0, 6, 6, 1, 8]).v (grandCoalition 3) = 8 ∧
    ¬(∃ l : List ℚ, TauValue.compute (Game.mk [0, 0, 0, 6, 6, 1, 8]) = some l ∧
        l.sum = (Game.mk [0, 0, 0, 6, 6, 1, 8]).v (grandCoalition 3)) := by
  have hnp : (Game.mk [0, 0, 0, 6, 6, 1, 8]).numPlayers = 3 := by
    show Nat.log2 8 = 3
    norm_num [Nat.log2]
  have hcoal : (Game.mk [0, 0, 0, 6, 6, 1, 8]).coalitions
      = [[1], [2], [3], [1, 2], [1, 3], [2, 3], [1, 2, 3]] := by
    show coalitionsList (Game.mk [0, 0, 0, 6, 6, 1, 8]).numPlayers = _
    rw [hnp]
    decide
  have htab : (Game.mk [0, 0, 0, 6, 6, 1, 8]).characteristic_function
      = [([1], 0), ([2], 0), ([3], 0), ([1, 2], 6), ([1, 3], 6), ([2, 3], 1),
         ([1, 2, 3], 8)] := by
    show (Game.mk [0, 0, 0, 6, 6, 1, 8]).coalitions.zip [0, 0, 0, 6, 6, 1, 8] = _
    rw [hcoal]
    rfl
  have hv : ∀ s : List Nat, (Game.mk [0, 0, 0, 6, 6, 1, 8]).v s
      = (dictLookup [([1], 0), ([2], 0), ([3], 0), ([1, 2], 6), ([1, 3], 6), ([2, 3], 1),
          ([1, 2, 3], 8)] s).getD 0 := by
    intro s
    rw [Game.v, htab]
  have hplayers : (Game.mk [0, 0, 0, 6, 6, 1, 8]).players = [1, 2, 3] := by
    show playersList (Game.mk [0, 0, 0, 6, 6, 1, 8]).numPlayers = _
    rw [hnp]
    rfl
  have hgrand : (Game.mk [0, 0, 0, 6, 6, 1, 8]).grand = [1, 2, 3] := by
    show ((Game.mk [0, 0, 0, 6, 6, 1, 8]).coalitions.getLast?).getD [] = _
    rw [hcoal]
    rfl
  have hM : (Game.mk [0, 0, 0, 6, 6, 1, 8]).get_utopia_payoff_vector = [7, 2, 2] := by
    unfold Game.get_utopia_payoff_vector
    rw [hplayers, hgrand]
    norm_num [hv, dictLookup, List.filter, List.cons_ne_nil]
  have hm : (Game.mk [0, 0, 0, 6, 6, 1, 8]).get_minimal_rights_vector = [4, 0, 0] := by
    unfold Game.get_minimal_rights_vector
    rw [hM, hplayers, hcoal]
    norm_num [hv, dictLookup, listMax, List.filter, List.range_succ, max_def, List.cons_ne_nil]
  have h1 : TauValue.compute (Game.mk [0, 0, 0, 6, 6, 1, 8]) = some [37/7, 6/7, 6/7] := by
    unfold TauValue.compute
    rw [hm, hM, hplayers, hgrand]
    norm_num [hv, dictLookup, List.cons_ne_nil]
  have h2 : ([37/7, 6/7, (6:ℚ)/7] : List ℚ).sum = 7 := by norm_num
  have h3 : (Game.mk [0, 0, 0, 6, 6, 1, 8]).v (grandCoalition 3) = 8 := by
    rw [hv]
    show (dictLookup _ [1, 2, 3]).getD 0 = 8
    norm_num [dictLookup, grandCoalition, List.cons_ne_nil]
  refine ⟨h1, h2, h3, ?_⟩
  rintro ⟨l, hl, hsum⟩
  rw [h1] at hl
  have : l = [37/7, 6/7, (6:ℚ)/7] := by
    exact (Option.some.injEq _ _).mp hl.symm
  rw [this, h2, h3] at hsum
  norm_num at hsum

/-- C6 (amended): for every TU game whose total raw swing-sum is nonzero, the
normalized Banzhaf value sums exactly to the grand-coalition value `v(N)`. -/
theorem banzhaf_normalized_efficiency (g : Game)
    (h : (BanzhafValue.marginal_contributions_sum g).sum ≠ 0) :
    ∃ l : List ℚ, BanzhafValue.compute g true = some l ∧ l.sum = g.v g.grand := by
  refine ⟨(BanzhafValue.marginal_contributions_sum g).map
      (fun b => g.v g.grand / (BanzhafValue.marginal_contributions_sum g).sum * b), ?_, ?_⟩
  · unfold BanzhafValue.compute
    rw [if_pos rfl, if_neg h]
  · rw [sum_map_mul, div_mul_cancel₀ _ h]

/-- Witness for C6 on the repository's own Banzhaf test game `[0,0,0,1,2,1,3]`. -/
theorem banzhaf_normalized_efficiency_witness :
    (BanzhafValue.marginal_contributions_sum (Game.mk [0, 0, 0, 1, 2, 1, 3])).sum ≠ 0 ∧
    ∃ l : List ℚ, BanzhafValue.compute (Game.mk [0, 0, 0, 1, 2, 1, 3]) true = some l ∧
      l.sum = (Game.mk [0, 0, 0, 1, 2, 1, 3]).v (Game.mk [0, 0, 0, 1, 2, 1, 3]).grand := by
  have h : (BanzhafValue.marginal_contributions_sum (Game.mk [0, 0, 0, 1, 2, 1, 3])).sum ≠ 0 := by
    norm_num [BanzhafValue.marginal_contributions_sum, Game.players, Game.coalitions,
      Game.v, Game.characteristic_function, Game.numPlayers, Nat.log2, coalitionsList,
      playersList, combinations, List.range', dictLookup, List.range_succ, List.filter,
      insertPlayer, List.orderedInsert, List.cons_ne_nil]
  exact ⟨h, banzhaf_normalized_efficiency (Game.mk [0, 0, 0, 1, 2, 1, 3]) h⟩

/-- Counterexample to C6 as stated: on the (valid) all-zero one-player game
`[0]` the total swing-sum vanishes, the normalization `K = v(N)/ΣB_j` divides
by zero, and no vector summing to `v(N)` is returned. -/
theorem banzhaf_normalized_not_always_efficient :
    BanzhafValue.compute (Game.mk [0]) true = none ∧
    ¬(∃ l : List ℚ, BanzhafValue.compute (Game.mk [0]) true = some l ∧
        l.sum = (Game.mk [0]).v (Game.mk [0]).grand) := by
  have h1 : BanzhafValue.compute (Game.mk [0]) true = none := by
    norm_num [BanzhafValue.compute, BanzhafValue.marginal_contributions_sum, Game.players,
      Game.coalitions, Game.v, Game.characteristic_function, Game.numPlayers, Nat.log2,
      coalitionsList, playersList, combinations, List.range', dictLookup, List.range_succ,
      List.filter, insertPlayer, Game.grand, List.getLast?]
  refine ⟨h1, ?_⟩
  rintro ⟨l, hl, -⟩
  rw [h1] at hl
  exact absurd hl (by simp)

/-- C7: minimal winning coalitions are exactly the winning coalitions all of
whose members are pivots (removing any member drops the sum below the quorum);
and on weights `[1,2,3]` with quorum `4` the winning coalitions are exactly
`(1,3), (2,3), (1,2,3)` and the minimal ones exactly `(1,3), (2,3)`. -/
theorem minimal_winning_coalitions_spec :
    (∀ (G : WeightedVotingGame) (s : List Nat),
      s ∈ G.get_minimal_winning_coalitions ↔
        (s ∈ G.coalitions ∧ G.weightSum s ≥ G.quorum ∧
          ∀ p ∈ s, G.weightSum s - G.contributions.getD (p - 1) 0 < G.quorum)) ∧
    (WeightedVotingGame.mk [1, 2, 3] 4).get_winning_coalitions
      = [[1, 3], [2, 3], [1, 2, 3]] ∧
    (WeightedVotingGame.mk [1, 2, 3] 4).get_minimal_winning_coalitions
      = [[1, 3], [2, 3]] := by
  refine ⟨?_, by decide, by decide⟩
  intro G s
  have hflt : ∀ (l : List (List Nat)) (f : List Nat → List Nat),
      ((l.map (fun w => (w, f w))).filter (fun p => decide (p.1 = p.2))).map (fun p => p.1)
        = l.filter (fun w => decide (w = f w)) := by
    intro l f
    induction l with
    | nil => rfl
    | cons a l ih =>
      simp only [List.map_cons, List.filter_cons, decide_eq_true_eq]
      by_cases h : a = f a
      · rw [if_pos h, if_pos h, List.map_cons, ih]
      · rw [if_neg h, if_neg h, ih]
  unfold WeightedVotingGame.get_minimal_winning_coalitions
    WeightedVotingGame.get_pivot_players WeightedVotingGame.get_winning_coalitions
  rw [hflt]
  rw [List.mem_filter, List.mem_filter, decide_eq_true_eq, decide_eq_true_eq, and_assoc]
  constructor
  · rintro ⟨h1, h2, h3⟩
    refine ⟨h1, h2, ?_⟩
    intro p hp
    have := List.filter_eq_self.mp h3.symm p hp
    rwa [decide_eq_true_eq] at this
  · rintro ⟨h1, h2, h3⟩
    refine ⟨h1, h2, ?_⟩
    refine Eq.symm (List.filter_eq_self.mpr ?_)
    intro p hp
    rw [decide_eq_true_eq]
    exact h3 p hp

/-- Counterexample to C4 as stated: two valid 1-player games on which a listed
calculator does not return `[v]`: the normalized Banzhaf value on the TU game
`[0]` (its normalization `K = v(N)/ΣB = 0/0` divides by zero), and the Public
Good Index on the losing voting game with weight `1` and quorum `2` (the
minimal-winning-coalition count is `0` and `len(W_m_j)/0` divides by zero). -/
theorem single_player_not_always_v :
    BanzhafValue.compute (Game.mk [0]) true ≠ some [(Game.mk [0]).v [1]] ∧
    PublicGoodIndex.compute (WeightedVotingGame.mk [1] 2)
      ≠ some [(WeightedVotingGame.mk [1] 2).v [1]] := by
  constructor
  · have h1 : BanzhafValue.compute (Game.mk [0]) true = none := by
      norm_num [BanzhafValue.compute, BanzhafValue.marginal_contributions_sum, Game.players,
        Game.coalitions, Game.v, Game.characteristic_function, Game.numPlayers, Nat.log2,
        coalitionsList, playersList, combinations, List.range', dictLookup, List.range_succ,
        List.filter, insertPlayer, Game.grand, List.getLast?, List.cons_ne_nil]
    rw [h1]
    simp
  · have h2 : PublicGoodIndex.compute (WeightedVotingGame.mk [1] 2) = none := rfl
    rw [h2]
    simp

/-- C4 (amended): on 1-player games the listed calculators return `[v]` except
in the zero-denominator cases: the Shapley value always returns `[c]`, the
normalized Banzhaf value returns `[c]` whenever `c ≠ 0`, the Shapley-Shubik
index always returns `[v({1})]`, and the Public Good Index returns `[1] = [v]`
whenever the single player is winning under a positive quorum. -/
theorem single_player_spec :
    (∀ c : ℚ, ShapleyValue.compute (Game.mk [c]) = [c]) ∧
    (∀ c : ℚ, c ≠ 0 → BanzhafValue.compute (Game.mk [c]) true = some [c]) ∧
    (∀ w q : Int, ShapleyShubikIndex.compute (WeightedVotingGame.mk [w] q)
        = [(WeightedVotingGame.mk [w] q).v [1]]) ∧
    (∀ w q : Int, 0 < q → q ≤ w →
        PublicGoodIndex.compute (WeightedVotingGame.mk [w] q) = some [1]) := by
  have hnp : ∀ c : ℚ, (Game.mk [c]).numPlayers = 1 := by
    intro c
    show Nat.log2 2 = 1
    norm_num [Nat.log2]
  have hco : ∀ c : ℚ, (Game.mk [c]).coalitions = [[1]] := by
    intro c
    show coalitionsList (Game.mk [c]).numPlayers = _
    rw [hnp]
    decide
  have hpl : ∀ c : ℚ, (Game.mk [c]).players = [1] := by
    intro c
    show playersList (Game.mk [c]).numPlayers = _
    rw [hnp]
    decide
  have hv : ∀ c : ℚ, (Game.mk [c]).v [1] = c := by
    intro c
    show (dictLookup ((Game.mk [c]).coalitions.zip [c]) [1]).getD 0 = c
    rw [hco]
    rfl
  refine ⟨?_, ?_, ?_, ?_⟩
  · intro c
    unfold ShapleyValue.compute
    rw [hpl, hco]
    norm_num [List.filter, hv]
  · intro c hc
    have hmarg : BanzhafValue.marginal_contributions_sum (Game.mk [c]) = [c] := by
      unfold BanzhafValue.marginal_contributions_sum
      rw [hpl, hco]
      norm_num [List.filter, hv]
    have hgr : (Game.mk [c]).grand = [1] := by
      show ((Game.mk [c]).coalitions.getLast?).getD [] = _
      rw [hco]
      rfl
    unfold BanzhafValue.compute
    rw [hmarg, if_pos rfl, hgr, hv]
    rw [if_neg (by simpa using hc)]
    rw [Option.some.injEq]
    simp only [List.sum_cons, List.sum_nil, add_zero, List.map_cons, List.map_nil]
    rw [div_mul_cancel₀ c hc]
  · intro w q
    rfl
  · intro w q hq hw
    unfold PublicGoodIndex.compute WeightedVotingGame.get_minimal_winning_coalitions
      WeightedVotingGame.get_pivot_players WeightedVotingGame.get_winning_coalitions
    have hco1 : (WeightedVotingGame.mk [w] q).coalitions = [[1]] := rfl
    have hws : (WeightedVotingGame.mk [w] q).weightSum [1] = w := by
      show w + 0 = w
      exact add_zero w
    rw [hco1]
    have hwin : (List.filter
        (fun s => decide ((WeightedVotingGame.mk [w] q).weightSum s
          ≥ (WeightedVotingGame.mk [w] q).quorum)) [[1]]) = [[1]] := by
      rw [List.filter_eq_self]
      intro a ha
      rw [List.mem_singleton] at ha
      subst ha
      rw [decide_eq_true_eq, hws]
      exact hw
    rw [hwin]
    have hpiv : (List.filter (fun player =>
        decide ((WeightedVotingGame.mk [w] q).weightSum [1]
          - (WeightedVotingGame.mk [w] q).contributions.getD (player - 1) 0
            < (WeightedVotingGame.mk [w] q).quorum)) [1]) = [1] := by
      rw [List.filter_eq_self]
      intro a ha
      rw [List.mem_singleton] at ha
      subst ha
      rw [decide_eq_true_eq, hws]
      show w - w < q
      omega
    simp only [List.map_cons, List.map_nil, hpiv, List.filter_cons]
    norm_num [WeightedVotingGame.players, playersList, List.range', List.filter]

/-- Witness for C4 (amended) at `c = 2` and the voting game `([3], 2)`. -/
theorem single_player_spec_witness :
    ShapleyValue.compute (Game.mk [2]) = [2] ∧
    ((2 : ℚ) ≠ 0 ∧ BanzhafValue.compute (Game.mk [2]) true = some [2]) ∧
    ShapleyShubikIndex.compute (WeightedVotingGame.mk [3] 2)
      = [(WeightedVotingGame.mk [3] 2).v [1]] ∧
    ((0 : Int) < 2 ∧ (2 : Int) ≤ 3 ∧
      PublicGoodIndex.compute (WeightedVotingGame.mk [3] 2) = some [1]) := by
  refine ⟨single_player_spec.1 2,
    ⟨by norm_num, single_player_spec.2.1 2 (by norm_num)⟩,
    single_player_spec.2.2.1 3 2,
    ⟨by norm_num, by norm_num, single_player_spec.2.2.2 3 2 (by norm_num) (by norm_num)⟩⟩


/-- Mapping then summing over a filtered list equals a guarded sum over the whole list. -/
theorem sum_map_filter_eq {α : Type} (q : α → Bool) (f : α → ℚ) :
    ∀ l : List α, ((l.filter q).map f).sum = (l.map (fun x => if q x then f x else 0)).sum := by
  intro l
  induction l with
  | nil => rfl
  | cons a l ih =>
    rw [List.filter_cons]
    by_cases h : q a = true
    · rw [if_pos h, List.map_cons, List.sum_cons, ih, List.map_cons, List.sum_cons, if_pos h]
    · rw [if_neg h, ih, List.map_cons, List.sum_cons, if_neg h, zero_add]

/-- Dividing each mapped term by a fixed rational divides the sum. -/
theorem sum_map_div {α : Type} (d : ℚ) (h : α → ℚ) :
    ∀ l : List α, (l.map (fun x => h x / d)).sum = (l.map h).sum / d := by
  intro l
  induction l with
  | nil => simp
  | cons a l ih => simp [ih, add_div]

/-- Sorting the finset of elements of a strictly increasing list gives back the list. -/
theorem sort_toFinset_eq {c : List Nat} (h : c.Pairwise (· < ·)) :
    Finset.sort (· ≤ ·) c.toFinset = c :=
  (List.toFinset_sort _ (h.imp (fun hab => Nat.ne_of_lt hab))).mpr
    (h.imp (fun hab => Nat.le_of_lt hab))

/-- The finset of elements of a nonempty list is nonempty. -/
theorem toFinset_ne_empty_of_ne_nil {c : List Nat} (hne : c ≠ []) : c.toFinset ≠ ∅ := by
  obtain ⟨x, hx⟩ := List.exists_mem_of_ne_nil c hne
  intro h
  have hx' : x ∈ c.toFinset := List.mem_toFinset.mpr hx
  rw [h] at hx'
  exact (Finset.not_mem_empty x) hx'

/-- The sorted list of a nonempty subset of the player set lies in the coalition universe. -/
theorem sort_mem_coalitionsList {n : Nat} {F : Finset Nat} (hne : F ≠ ∅)
    (hsub : F ⊆ (playersList n).toFinset) :
    Finset.sort (· ≤ ·) F ∈ coalitionsList n := by
  rw [mem_coalitionsList]
  constructor
  · obtain ⟨x, hx⟩ := Finset.nonempty_iff_ne_empty.mpr hne
    intro h0
    have hx' : x ∈ Finset.sort (· ≤ ·) F := (Finset.mem_sort _).mpr hx
    rw [h0] at hx'
    exact (List.not_mem_nil x) hx'
  · rw [sublist_playersList_iff]
    exact ⟨Finset.sort_sorted_lt F,
      fun p hp => mem_playersList.mp (List.mem_toFinset.mp (hsub ((Finset.mem_sort _).mp hp)))⟩

/-- A mapped sum over the coalition universe is a guarded sum over the powerset of
the player set, reading each subset through its sorted element list. -/
theorem sum_map_coalitionsList (n : Nat) (f : List Nat → ℚ) :
    ((coalitionsList n).map f).sum
      = ∑ F ∈ (playersList n).toFinset.powerset,
          (if F = ∅ then 0 else f (Finset.sort (· ≤ ·) F)) := by
  rw [← List.sum_toFinset f (coalitionsList_nodup n)]
  have hsplit : ∑ F ∈ (playersList n).toFinset.powerset,
        (if F = ∅ then 0 else f (Finset.sort (· ≤ ·) F))
      = (∑ F ∈ (playersList n).toFinset.powerset.erase ∅,
          (if F = ∅ then 0 else f (Finset.sort (· ≤ ·) F)))
        + (if (∅ : Finset Nat) = ∅ then 0 else f (Finset.sort (· ≤ ·) (∅ : Finset Nat))) :=
    (Finset.sum_erase_add _ _ (Finset.empty_mem_powerset _)).symm
  rw [hsplit, if_pos rfl, add_zero]
  refine Finset.sum_nbij' (fun c => c.toFinset) (fun F => Finset.sort (· ≤ ·) F)
    ?_ ?_ ?_ ?_ ?_
  · intro c hc
    obtain ⟨hne, hsub⟩ := mem_coalitionsList.mp (List.mem_toFinset.mp hc)
    rw [Finset.mem_erase, Finset.mem_powerset]
    exact ⟨toFinset_ne_empty_of_ne_nil hne,
      fun x hx => List.mem_toFinset.mpr (hsub.subset (List.mem_toFinset.mp hx))⟩
  · intro F hF
    rw [Finset.mem_erase, Finset.mem_powerset] at hF
    exact List.mem_toFinset.mpr (sort_mem_coalitionsList hF.1 hF.2)
  · intro c hc
    obtain ⟨hne, hsub⟩ := mem_coalitionsList.mp (List.mem_toFinset.mp hc)
    exact sort_toFinset_eq (sublist_playersList_iff.mp hsub).1
  · intro F hF
    exact Finset.sort_toFinset _ F
  · intro c hc
    obtain ⟨hne, hsub⟩ := mem_coalitionsList.mp (List.mem_toFinset.mp hc)
    rw [if_neg (toFinset_ne_empty_of_ne_nil hne),
      sort_toFinset_eq (sublist_playersList_iff.mp hsub).1]

/-- Sorting `insert p F` is ordered insertion of `p` into the sorted list of `F`. -/
theorem sort_insert {p : Nat} {F : Finset Nat} (hp : p ∉ F) :
    Finset.sort (· ≤ ·) (insert p F) = insertPlayer p (Finset.sort (· ≤ ·) F) := by
  refine List.eq_of_perm_of_sorted ?_ (Finset.sort_sorted _ _) ?_
  · exact (Finset.sort_perm_toList _ _).trans ((Finset.toList_insert hp).trans
      (((Finset.sort_perm_toList _ _).symm.cons p).trans (List.perm_orderedInsert _ _ _).symm))
  · exact List.Sorted.orderedInsert p _ (Finset.sort_sorted _ _)

/-- Splitting off the empty set from a powerset sum. -/
theorem sum_powerset_split (s : Finset Nat) (F : Finset Nat → ℚ) :
    ∑ t ∈ s.powerset, F t = F ∅ + ∑ t ∈ s.powerset, (if t = ∅ then 0 else F t) := by
  have h1 : ∑ t ∈ s.powerset, F t
      = (∑ t ∈ s.powerset.erase ∅, F t) + F ∅ :=
    (Finset.sum_erase_add _ _ (Finset.empty_mem_powerset s)).symm
  have h2 : ∑ t ∈ s.powerset, (if t = ∅ then 0 else F t)
      = (∑ t ∈ s.powerset.erase ∅, (if t = ∅ then 0 else F t))
        + (if (∅ : Finset Nat) = ∅ then 0 else F ∅) :=
    (Finset.sum_erase_add _ _ (Finset.empty_mem_powerset s)).symm
  rw [h1, h2, if_pos rfl, add_zero,
    add_comm (∑ t ∈ s.powerset.erase ∅, F t) (F ∅)]
  congr 1
  refine Finset.sum_congr rfl (fun t ht => ?_)
  rw [if_neg (Finset.mem_erase.mp ht).1]

/-- A guarded powerset sum whose payload vanishes on sets containing `p` can be
restricted to the powerset with `p` removed. -/
theorem sum_powerset_guard_insert (N : Finset Nat) (p : Nat) (hp : p ∈ N)
    (G : Finset Nat → ℚ) (hGp : ∀ t : Finset Nat, p ∈ t → G t = 0) :
    ∑ F ∈ N.powerset, (if F = ∅ then 0 else G F)
      = ∑ F ∈ (N.erase p).powerset, (if F = ∅ then 0 else G F) := by
  have hzero : ∑ t ∈ (N.erase p).powerset,
      (if insert p t = ∅ then 0 else G (insert p t)) = 0 := by
    refine Finset.sum_eq_zero (fun t ht => ?_)
    rw [hGp (insert p t) (Finset.mem_insert_self p t), ite_self]
  calc
    ∑ F ∈ N.powerset, (if F = ∅ then 0 else G F)
        = ∑ F ∈ (insert p (N.erase p)).powerset, (if F = ∅ then 0 else G F) := by
          rw [Finset.insert_erase hp]
    _ = (∑ F ∈ (N.erase p).powerset, (if F = ∅ then 0 else G F))
        + ∑ t ∈ (N.erase p).powerset, (if insert p t = ∅ then 0 else G (insert p t)) :=
          Finset.sum_powerset_insert (Finset.not_mem_erase p N) _
    _ = ∑ F ∈ (N.erase p).powerset, (if F = ∅ then 0 else G F) := by
          rw [hzero, add_zero]

/-- Reindexing the double sum over a player and a subset of the other players by
the resulting coalition: each subset `S` arises once for each of its members. -/
theorem sum_insert_reindex (N : Finset Nat) (b : Nat → ℚ) (w : Finset Nat → ℚ) :
    ∑ p ∈ N, ∑ C ∈ (N.erase p).powerset, b C.card * w (insert p C)
      = ∑ S ∈ N.powerset, (S.card : ℚ) * (b (S.card - 1) * w S) := by
  have hL : (∑ p ∈ N, ∑ C ∈ (N.erase p).powerset, b C.card * w (insert p C))
      = ∑ x ∈ N.sigma (fun p => (N.erase p).powerset), b x.2.card * w (insert x.1 x.2) :=
    Finset.sum_sigma' N (fun p => (N.erase p).powerset) (fun p C => b C.card * w (insert p C))
  have hR1 : ∀ S ∈ N.powerset, (S.card : ℚ) * (b (S.card - 1) * w S)
      = ∑ q ∈ S, b (S.card - 1) * w S := by
    intro S hS
    rw [Finset.sum_const, nsmul_eq_mul]
  have hR : (∑ S ∈ N.powerset, (S.card : ℚ) * (b (S.card - 1) * w S))
      = ∑ y ∈ N.powerset.sigma (fun S => S), b (y.1.card - 1) * w y.1 := by
    rw [Finset.sum_congr rfl hR1]
    exact Finset.sum_sigma' N.powerset (fun S => S) (fun S q => b (S.card - 1) * w S)
  rw [hL, hR]
  refine Finset.sum_nbij' (fun x => ⟨insert x.1 x.2, x.1⟩) (fun y => ⟨y.2, y.1.erase y.2⟩)
    ?_ ?_ ?_ ?_ ?_
  · rintro ⟨p, C⟩ hx
    rw [Finset.mem_sigma, Finset.mem_powerset] at hx
    rw [Finset.mem_sigma, Finset.mem_powerset]
    exact ⟨Finset.insert_subset hx.1 (hx.2.trans (Finset.erase_subset _ _)),
      Finset.mem_insert_self p C⟩
  · rintro ⟨S, q⟩ hy
    rw [Finset.mem_sigma, Finset.mem_powerset] at hy
    rw [Finset.mem_sigma, Finset.mem_powerset]
    exact ⟨hy.1 hy.2, Finset.erase_subset_erase q hy.1⟩
  · rintro ⟨p, C⟩ hx
    rw [Finset.mem_sigma, Finset.mem_powerset] at hx
    have hpC : p ∉ C := fun hmem => Finset.not_mem_erase p N (hx.2 hmem)
    show (⟨p, (insert p C).erase p⟩ : (_ : Nat) × Finset Nat) = ⟨p, C⟩
    rw [Finset.erase_insert hpC]
  · rintro ⟨S, q⟩ hy
    rw [Finset.mem_sigma] at hy
    show (⟨insert q (S.erase q), q⟩ : (_ : Finset Nat) × Nat) = ⟨S, q⟩
    rw [Finset.insert_erase hy.2]
  · rintro ⟨p, C⟩ hx
    rw [Finset.mem_sigma, Finset.mem_powerset] at hx
    have hpC : p ∉ C := fun hmem => Finset.not_mem_erase p N (hx.2 hmem)
    show b C.card * w (insert p C) = b ((insert p C).card - 1) * w (insert p C)
    rw [Finset.card_insert_of_not_mem hpC, Nat.add_sub_cancel]

/-- Swapping the double sum over a player and a subset of the remaining players:
each subset is counted once per player outside it. -/
theorem sum_erase_powerset_swap (N : Finset Nat) (F : Finset Nat → ℚ) :
    ∑ p ∈ N, ∑ C ∈ (N.erase p).powerset, F C
      = ∑ C ∈ N.powerset, ((N.card - C.card : ℕ) : ℚ) * F C := by
  have h : ∀ (p : Nat) (C : Finset Nat),
      p ∈ N ∧ C ∈ (N.erase p).powerset ↔ p ∈ N \ C ∧ C ∈ N.powerset := by
    intro p C
    rw [Finset.mem_powerset, Finset.mem_powerset, Finset.mem_sdiff, Finset.subset_erase]
    constructor
    · rintro ⟨hp, hC, hpC⟩
      exact ⟨⟨hp, hpC⟩, hC⟩
    · rintro ⟨⟨hp, hpC⟩, hC⟩
      exact ⟨hp, hC, hpC⟩
  rw [Finset.sum_comm' h]
  refine Finset.sum_congr rfl (fun C hC => ?_)
  rw [Finset.sum_const, nsmul_eq_mul, Finset.card_sdiff (Finset.mem_powerset.mp hC)]

/-- The Shapley summand of one player equals a sum over subsets of the other
players, with the singleton seed term absorbed as the empty-set summand. -/
theorem shapley_term_eq (n : Nat) (v : List Nat → ℚ) (p : Nat) (hp : p ∈ playersList n) :
    v [p] * (Nat.factorial (n - 1) : ℚ) +
      (((coalitionsList n).filter (fun c => decide (p ∉ c))).map
        (fun c => (Nat.factorial c.length : ℚ) * (Nat.factorial (n - c.length - 1) : ℚ)
          * (v (insertPlayer p c) - v c))).sum
    = ∑ C ∈ ((playersList n).toFinset.erase p).powerset,
        (Nat.factorial C.card : ℚ) * (Nat.factorial (n - C.card - 1) : ℚ)
          * (v (Finset.sort (· ≤ ·) (insert p C))
            - (if C = ∅ then 0 else v (Finset.sort (· ≤ ·) C))) := by
  have hpN : p ∈ (playersList n).toFinset := List.mem_toFinset.mpr hp
  have h1 : (((coalitionsList n).filter (fun c => decide (p ∉ c))).map
        (fun c => (Nat.factorial c.length : ℚ) * (Nat.factorial (n - c.length - 1) : ℚ)
          * (v (insertPlayer p c) - v c))).sum
      = ((coalitionsList n).map
        (fun c => if decide (p ∉ c) = true then
            (Nat.factorial c.length : ℚ) * (Nat.factorial (n - c.length - 1) : ℚ)
              * (v (insertPlayer p c) - v c)
          else 0)).sum :=
    sum_map_filter_eq _ _ _
  have h2 : ((coalitionsList n).map
        (fun c => if decide (p ∉ c) = true then
            (Nat.factorial c.length : ℚ) * (Nat.factorial (n - c.length - 1) : ℚ)
              * (v (insertPlayer p c) - v c)
          else 0)).sum
      = ∑ F ∈ (playersList n).toFinset.powerset,
          (if F = ∅ then 0 else
            (if decide (p ∉ Finset.sort (· ≤ ·) F) = true then
              (Nat.factorial (Finset.sort (· ≤ ·) F).length : ℚ)
                * (Nat.factorial (n - (Finset.sort (· ≤ ·) F).length - 1) : ℚ)
                * (v (insertPlayer p (Finset.sort (· ≤ ·) F)) - v (Finset.sort (· ≤ ·) F))
            else 0)) :=
    sum_map_coalitionsList n _
  have h3 : ∑ F ∈ (playersList n).toFinset.powerset,
        (if F = ∅ then 0 else
          (if decide (p ∉ Finset.sort (· ≤ ·) F) = true then
            (Nat.factorial (Finset.sort (· ≤ ·) F).length : ℚ)
              * (Nat.factorial (n - (Finset.sort (· ≤ ·) F).length - 1) : ℚ)
              * (v (insertPlayer p (Finset.sort (· ≤ ·) F)) - v (Finset.sort (· ≤ ·) F))
          else 0))
      = ∑ F ∈ ((playersList n).toFinset.erase p).powerset,
          (if F = ∅ then 0 else
            (if decide (p ∉ Finset.sort (· ≤ ·) F) = true then
              (Nat.factorial (Finset.sort (· ≤ ·) F).length : ℚ)
                * (Nat.factorial (n - (Finset.sort (· ≤ ·) F).length - 1) : ℚ)
                * (v (insertPlayer p (Finset.sort (· ≤ ·) F)) - v (Finset.sort (· ≤ ·) F))
            else 0)) :=
    sum_powerset_guard_insert _ p hpN _ (fun t ht => by simp [Finset.mem_sort, ht])
  have h4 : ∑ C ∈ ((playersList n).toFinset.erase p).powerset,
        ((Nat.factorial C.card : ℚ) * (Nat.factorial (n - C.card - 1) : ℚ)
          * (v (Finset.sort (· ≤ ·) (insert p C))
            - (if C = ∅ then 0 else v (Finset.sort (· ≤ ·) C))))
      = ((Nat.factorial (∅ : Finset Nat).card : ℚ)
          * (Nat.factorial (n - (∅ : Finset Nat).card - 1) : ℚ)
          * (v (Finset.sort (· ≤ ·) (insert p (∅ : Finset Nat)))
            - (if (∅ : Finset Nat) = ∅ then 0
              else v (Finset.sort (· ≤ ·) (∅ : Finset Nat)))))
        + ∑ C ∈ ((playersList n).toFinset.erase p).powerset,
            (if C = ∅ then 0 else
              (Nat.factorial C.card : ℚ) * (Nat.factorial (n - C.card - 1) : ℚ)
                * (v (Finset.sort (· ≤ ·) (insert p C))
                  - (if C = ∅ then 0 else v (Finset.sort (· ≤ ·) C)))) :=
    sum_powerset_split _ _
  rw [h1, h2, h3, h4]
  congr 1
  · rw [sort_insert (Finset.not_mem_empty p), Finset.sort_empty, if_pos rfl]
    simp only [insertPlayer, List.orderedInsert, Finset.card_empty, Nat.factorial_zero,
      Nat.cast_one, one_mul, Nat.sub_zero, sub_zero]
    ring
  · refine Finset.sum_congr rfl (fun C hC => ?_)
    by_cases hC0 : C = ∅
    · rw [if_pos hC0, if_pos hC0]
    · rw [if_neg hC0, if_neg hC0]
      have hpC : p ∉ C := fun hmem =>
        Finset.not_mem_erase p (playersList n).toFinset
          ((Finset.mem_powerset.mp hC) hmem)
      have hcond : decide (p ∉ Finset.sort (· ≤ ·) C) = true :=
        decide_eq_true (fun hmem => hpC ((Finset.mem_sort _).mp hmem))
      rw [if_pos hcond, Finset.length_sort, ← sort_insert hpC, if_neg hC0]

/-- C5: for every TU game, the components of the Shapley value vector returned by
`ShapleyValue.compute` sum exactly to `v(N)`, the value of the grand coalition. -/
theorem shapley_efficiency (g : Game) :
    (ShapleyValue.compute g).sum = g.v g.grand := by
  by_cases hn0 : g.numPlayers = 0
  · have h1 : ShapleyValue.compute g = [] := by
      simp [ShapleyValue.compute, Game.players, playersList, hn0]
    have h2 : g.grand = [] := by
      simp [Game.grand, Game.coalitions, hn0, coalitionsList]
    have h3 : g.v [] = 0 := by
      simp [Game.v, Game.characteristic_function, Game.coalitions, hn0, coalitionsList,
        dictLookup]
    rw [h1, h2, h3]
    rfl
  · have hn : 1 ≤ g.numPlayers := Nat.one_le_iff_ne_zero.mpr hn0
    rw [grand_eq g hn]
    have hcompute : ShapleyValue.compute g
        = (playersList g.numPlayers).map (fun p =>
            (g.v [p] * (Nat.factorial (g.numPlayers - 1) : ℚ) +
              (((coalitionsList g.numPlayers).filter (fun c => decide (p ∉ c))).map
                (fun c => (Nat.factorial c.length : ℚ)
                  * (Nat.factorial (g.numPlayers - c.length - 1) : ℚ)
                  * (g.v (insertPlayer p c) - g.v c))).sum)
              / (Nat.factorial g.numPlayers : ℚ)) := by
      simp only [ShapleyValue.compute, Game.players, Game.coalitions, playersList_length]
    rw [hcompute]
    rw [sum_map_div]
    rw [← List.sum_toFinset _ (playersList_nodup g.numPlayers)]
    have hterm : ∀ p ∈ (playersList g.numPlayers).toFinset,
        (g.v [p] * (Nat.factorial (g.numPlayers - 1) : ℚ) +
          (((coalitionsList g.numPlayers).filter (fun c => decide (p ∉ c))).map
            (fun c => (Nat.factorial c.length : ℚ)
              * (Nat.factorial (g.numPlayers - c.length - 1) : ℚ)
              * (g.v (insertPlayer p c) - g.v c))).sum)
        = ∑ C ∈ ((playersList g.numPlayers).toFinset.erase p).powerset,
            (Nat.factorial C.card : ℚ) * (Nat.factorial (g.numPlayers - C.card - 1) : ℚ)
              * (g.v (Finset.sort (· ≤ ·) (insert p C))
                - (if C = ∅ then 0 else g.v (Finset.sort (· ≤ ·) C))) :=
      fun p hp => shapley_term_eq g.numPlayers g.v p (List.mem_toFinset.mp hp)
    rw [Finset.sum_congr rfl hterm]
    simp only [mul_sub, Finset.sum_sub_distrib]
    have hP : ∑ p ∈ (playersList g.numPlayers).toFinset,
        ∑ C ∈ ((playersList g.numPlayers).toFinset.erase p).powerset,
          (Nat.factorial C.card : ℚ) * (Nat.factorial (g.numPlayers - C.card - 1) : ℚ)
            * g.v (Finset.sort (· ≤ ·) (insert p C))
        = ∑ S ∈ (playersList g.numPlayers).toFinset.powerset,
            (S.card : ℚ) * ((Nat.factorial (S.card - 1) : ℚ)
              * (Nat.factorial (g.numPlayers - (S.card - 1) - 1) : ℚ)
              * g.v (Finset.sort (· ≤ ·) S)) :=
      sum_insert_reindex _
        (fun c => (Nat.factorial c : ℚ) * (Nat.factorial (g.numPlayers - c - 1) : ℚ))
        (fun F => g.v (Finset.sort (· ≤ ·) F))
    have hQ : ∑ p ∈ (playersList g.numPlayers).toFinset,
        ∑ C ∈ ((playersList g.numPlayers).toFinset.erase p).powerset,
          (Nat.factorial C.card : ℚ) * (Nat.factorial (g.numPlayers - C.card - 1) : ℚ)
            * (if C = ∅ then 0 else g.v (Finset.sort (· ≤ ·) C))
        = ∑ C ∈ (playersList g.numPlayers).toFinset.powerset,
            (((playersList g.numPlayers).toFinset.card - C.card : ℕ) : ℚ)
              * ((Nat.factorial C.card : ℚ)
                * (Nat.factorial (g.numPlayers - C.card - 1) : ℚ)
                * (if C = ∅ then 0 else g.v (Finset.sort (· ≤ ·) C))) :=
      sum_erase_powerset_swap _
        (fun C => (Nat.factorial C.card : ℚ)
          * (Nat.factorial (g.numPlayers - C.card - 1) : ℚ)
          * (if C = ∅ then 0 else g.v (Finset.sort (· ≤ ·) C)))
    rw [hP, hQ]
    have hcard : (playersList g.numPlayers).toFinset.card = g.numPlayers := by
      rw [List.toFinset_card_of_nodup (playersList_nodup _), playersList_length]
    rw [hcard]
    rw [← Finset.sum_sub_distrib]
    have hcollapse : ∀ S ∈ (playersList g.numPlayers).toFinset.powerset,
        ((S.card : ℚ) * ((Nat.factorial (S.card - 1) : ℚ)
            * (Nat.factorial (g.numPlayers - (S.card - 1) - 1) : ℚ)
            * g.v (Finset.sort (· ≤ ·) S))
          - ((g.numPlayers - S.card : ℕ) : ℚ)
            * ((Nat.factorial S.card : ℚ)
              * (Nat.factorial (g.numPlayers - S.card - 1) : ℚ)
              * (if S = ∅ then 0 else g.v (Finset.sort (· ≤ ·) S))))
        = if S = (playersList g.numPlayers).toFinset
            then (Nat.factorial g.numPlayers : ℚ) * g.v (playersList g.numPlayers) else 0 := by
      intro S hS
      by_cases hSN : S = (playersList g.numPlayers).toFinset
      · rw [if_pos hSN, hSN, hcard, sort_toFinset_eq (playersList_sorted g.numPlayers),
          Nat.sub_self, Nat.cast_zero, zero_mul, sub_zero,
          show g.numPlayers - (g.numPlayers - 1) - 1 = 0 from by omega,
          Nat.factorial_zero, Nat.cast_one, mul_one]
        have hmf : (g.numPlayers : ℚ) * (Nat.factorial (g.numPlayers - 1) : ℚ)
            = (Nat.factorial g.numPlayers : ℚ) := by
          exact_mod_cast congrArg (fun k : Nat => (k : ℚ)) (Nat.mul_factorial_pred hn)
        rw [← mul_assoc, hmf]
      · rw [if_neg hSN]
        by_cases hS0 : S = ∅
        · rw [hS0]
          simp
        · have hs1 : 1 ≤ S.card :=
            Finset.card_pos.mpr (Finset.nonempty_iff_ne_empty.mpr hS0)
          have hsn : S.card < g.numPlayers := by
            rw [← hcard]
            exact Finset.card_lt_card
              (Finset.ssubset_iff_subset_ne.mpr ⟨Finset.mem_powerset.mp hS, hSN⟩)
          rw [if_neg hS0]
          have hnat : S.card * (Nat.factorial (S.card - 1)
                * Nat.factorial (g.numPlayers - (S.card - 1) - 1))
              = (g.numPlayers - S.card)
                * (Nat.factorial S.card * Nat.factorial (g.numPlayers - S.card - 1)) := by
            rw [show g.numPlayers - (S.card - 1) - 1 = g.numPlayers - S.card from by omega]
            rw [← Nat.mul_factorial_pred (by omega : 0 < S.card)]
            rw [← Nat.mul_factorial_pred (by omega : 0 < g.numPlayers - S.card)]
            ring
          have hkey : (S.card : ℚ) * ((Nat.factorial (S.card - 1) : ℚ)
              * (Nat.factorial (g.numPlayers - (S.card - 1) - 1) : ℚ))
              = ((g.numPlayers - S.card : ℕ) : ℚ)
                * ((Nat.factorial S.card : ℚ)
                  * (Nat.factorial (g.numPlayers - S.card - 1) : ℚ)) := by
            exact_mod_cast congrArg (fun k : Nat => (k : ℚ)) hnat
          linear_combination g.v (Finset.sort (· ≤ ·) S) * hkey
    rw [Finset.sum_congr rfl hcollapse]
    have hite : ∑ S ∈ (playersList g.numPlayers).toFinset.powerset,
        (if S = (playersList g.numPlayers).toFinset
          then (Nat.factorial g.numPlayers : ℚ) * g.v (playersList g.numPlayers) else 0)
        = if (playersList g.numPlayers).toFinset
            ∈ (playersList g.numPlayers).toFinset.powerset
          then (Nat.factorial g.numPlayers : ℚ) * g.v (playersList g.numPlayers) else 0 :=
      Finset.sum_ite_eq' _ _
        (fun _ => (Nat.factorial g.numPlayers : ℚ) * g.v (playersList g.numPlayers))
    rw [hite, if_pos (Finset.mem_powerset_self _)]
    rw [mul_div_cancel_left₀ _ (show (Nat.factorial g.numPlayers : ℚ) ≠ 0 from
      Nat.cast_ne_zero.mpr (Nat.factorial_ne_zero _))]
    rfl

end CoopGames
